import Mathlib

/-!
# tf-neat-diff: a shallow embedding of `cmd/main.go`

The program reads a rendered Terraform plan line by line, rebuilds the brace
structure of every diff section as a tree (`scan`), cancels adjacent
added/removed pairs with equal text inside updated blocks (`minimize`) and
renders the tree back (`toStr`).

Conventions of the embedding.

* A Go `string` is a byte sequence: `GoString := List Nat`, one entry per byte.
  `len`, slicing and the index functions of package `strings` all count bytes.
* A Go run-time panic (index or slice out of range) is the result
  `Except.error Fault.panic`.  Functions that the embedding defines by recursion
  on a fuel counter return `Except.error Fault.outOfFuel` when the counter is
  exhausted; the entry points supply enough fuel and this is proved.
* `bufio.Scanner` is the list of the lines it has not yet returned.  Read
  errors of the underlying stream are outside the model.
-/

namespace TfNeatDiff

/-- Go strings are byte sequences. -/
abbrev GoString := List Nat

/-- The bytes of an ASCII literal. -/
def ascii (s : String) : GoString := s.toList.map Char.toNat

/-- What stops an evaluation short of a result. -/
inductive Fault where
  | panic
  | outOfFuel
  deriving DecidableEq, Repr

instance instDecidableEqExcept {ε α : Type} [DecidableEq ε] [DecidableEq α] :
    DecidableEq (Except ε α)
  | .ok a, .ok b => if h : a = b then isTrue (by rw [h]) else isFalse (by intro e; cases e; exact h rfl)
  | .error a, .error b =>
      if h : a = b then isTrue (by rw [h]) else isFalse (by intro e; cases e; exact h rfl)
  | .ok _, .error _ => isFalse (by intro e; cases e)
  | .error _, .ok _ => isFalse (by intro e; cases e)

/-! ## Package `strings` -/

/-- Go `strings.HasPrefix(s, pre)`. -/
def HasPrefix (s pre : GoString) : Bool := pre.isPrefixOf s

/-- Go `strings.HasSuffix(s, suf)`. -/
def HasSuffix (s suf : GoString) : Bool := suf.isSuffixOf s

/-- Search loop of `strings.Index`: `i` is the offset of `s` in the whole string. -/
def indexFrom (substr : GoString) : GoString → Nat → Int
  | [], i => if substr = [] then (i : Int) else -1
  | c :: cs, i => if HasPrefix (c :: cs) substr then (i : Int) else indexFrom substr cs (i + 1)

/-- Go `strings.Index(s, substr)`: the first byte offset at which `substr` occurs, or `-1`. -/
def Index (s substr : GoString) : Int := indexFrom substr s 0

/-- Search loop of `strings.LastIndex`: `best` is the last match found so far. -/
def lastIndexFrom (substr : GoString) : GoString → Nat → Int → Int
  | [], i, best => if substr = [] then (i : Int) else best
  | c :: cs, i, best =>
      lastIndexFrom substr cs (i + 1) (if HasPrefix (c :: cs) substr then (i : Int) else best)

/-- Go `strings.LastIndex(s, substr)`: the last byte offset at which `substr` occurs, or `-1`. -/
def LastIndex (s substr : GoString) : Int := lastIndexFrom substr s 0 (-1)

/-- Go `strings.Contains(s, substr)`. -/
def Contains (s substr : GoString) : Bool := decide (0 ≤ Index s substr)

/-- Go `strings.TrimLeft(s, " ")`: drop the leading space bytes. -/
def TrimLeft : GoString → GoString
  | [] => []
  | c :: cs => if c = 32 then TrimLeft cs else c :: cs

/-- Go `strings.Repeat(" ", count)`. -/
def Repeat (count : Nat) : GoString := List.replicate count 32

/-- Go `strings.SplitAfterN(s, sep, n)` for a non-empty `sep` and `n ≥ 0`: at most `n`
pieces, each but the last ending with `sep`. -/
def SplitAfterN (sep : GoString) : GoString → Nat → List GoString
  | _, 0 => []
  | s, 1 => [s]
  | s, n + 2 =>
      if Index s sep < 0 then [s]
      else
        let m := (Index s sep).toNat + sep.length
        s.take m :: SplitAfterN sep (s.drop m) (n + 1)

/-- Go slice expression `s[:hi]` on a string; out of range panics. -/
def sliceTo (s : GoString) (hi : Int) : Except Fault GoString :=
  if hi < 0 ∨ (s.length : Int) < hi then .error .panic else .ok (s.take hi.toNat)

/-- Go index expression `parts[i]` on a slice of strings; out of range panics. -/
def idx (parts : List GoString) (i : Nat) : Except Fault GoString :=
  match parts.get? i with
  | some p => .ok p
  | none => .error .panic

/-! ## Lines -/

/-- Go `opType` with its four constants. -/
inductive opType where
  | OpNone
  | OpAdd
  | OpDelete
  | OpUpdate
  deriving DecidableEq, Repr

/-- Go `braceType`. -/
inductive braceType where
  | BraceNone
  | BraceOpen
  | BraceClose
  deriving DecidableEq, Repr

open opType braceType

/-- Go `type line struct`. -/
structure line where
  indentCount : Nat
  operation : opType
  opStr : GoString
  content : GoString
  brace : braceType
  hasTrailingNull : Bool
  deriving DecidableEq, Repr

/-- Go `func (ln line) toStr() string`. -/
def line.toStr (ln : line) : GoString :=
  Repeat ln.indentCount ++ ln.opStr ++ ln.content ++ [10]

/-- The two bytes ESC `[` (`escStr` in `parseOperation`). -/
def escStr : GoString := [27, 91]

/-- Go `func parseOperation(content string) (opType, string, string)`.  The marker text
and the rest are `parts[0]` and `parts[1]` of `strings.SplitAfterN(content, m, 2)`. -/
def parseOperation (content : GoString) : Except Fault (opType × GoString × GoString) :=
  let addIdx := Index content ([43] ++ escStr)
  if addIdx ≠ -1 ∧ addIdx < 12 then do
    let parts := SplitAfterN [43] content 2
    let p0 ← idx parts 0
    let p1 ← idx parts 1
    pure (OpAdd, p0, p1)
  else
    let delIdx := Index content ([45] ++ escStr)
    if delIdx ≠ -1 ∧ delIdx < 12 then do
      let parts := SplitAfterN [45] content 2
      let p0 ← idx parts 0
      let p1 ← idx parts 1
      pure (OpDelete, p0, p1)
    else
      let updIdx := Index content ([126] ++ escStr)
      if updIdx ≠ -1 ∧ updIdx < 12 then do
        let parts := SplitAfterN [126] content 2
        let p0 ← idx parts 0
        let p1 ← idx parts 1
        pure (OpUpdate, p0, p1)
      else
        pure (OpNone, [], content)

/-- Go `func parseTrailingNull(content string) (bool, string)`. -/
def parseTrailingNull (content : GoString) : Except Fault (Bool × GoString) :=
  let arrowNullLen : Int := 34
  let nullIdx := LastIndex content (ascii "null")
  let arrowIdx := LastIndex content (ascii "->")
  if nullIdx ≠ -1 ∧ nullIdx > (content.length : Int) - arrowNullLen ∧
      arrowIdx ≠ -1 ∧ arrowIdx > (content.length : Int) - arrowNullLen then do
    let newContent ← sliceTo content ((content.length : Int) - arrowNullLen)
    pure (true, newContent)
  else
    pure (false, content)

/-- Go `func parseLine(ln string) (line, error)`.  The `error` result is `nil` on every
path of the source, so the only failure left is a panic. -/
def parseLine (ln : GoString) : Except Fault line := do
  let content := TrimLeft ln
  let indentCount := ln.length - content.length
  let (op, opStr, content) ← parseOperation content
  let brace :=
    if HasSuffix content [123] then BraceOpen
    else if HasPrefix content [125] then BraceClose
    else BraceNone
  let (hasNull, content) ← parseTrailingNull content
  pure
    { indentCount := indentCount
      operation := op
      opStr := opStr
      content := content
      brace := brace
      hasTrailingNull := hasNull }

/-! ## Trees -/

/-- Go `type node struct`: a leaf carries `data`, every other node carries `children`. -/
inductive node where
  | leaf (data : line)
  | block (children : List node)
  deriving Repr

open node

/-- Go `func createLeaf(ln line) node`. -/
def createLeaf (ln : line) : node := leaf ln

/-- Go `func createNode(n *node) node`. -/
def createNode (n : node) : node := block [n]

mutual
/-- Go `func (n *node) toStr() string`. -/
def node.toStr : node → GoString
  | leaf data => data.toStr
  | block children => toStrList children
/-- The `for _, child := range n.children` loop of `toStr`. -/
def toStrList : List node → GoString
  | [] => []
  | child :: rest => child.toStr ++ toStrList rest
end

mutual
/-- Go `func (n *node) getContent() string`. -/
def node.getContent : node → GoString
  | leaf data => data.content
  | block children => getContentList children
/-- The `for _, child := range n.children` loop of `getContent`. -/
def getContentList : List node → GoString
  | [] => []
  | child :: rest => child.getContent ++ getContentList rest
end

/-- Go `func (n *node) getOperation() opType`; `n.children[0]` panics on an empty block. -/
def node.getOperation : node → Except Fault opType
  | leaf data => .ok data.operation
  | block [] => .error .panic
  | block (child :: _) => child.getOperation

/-- Go `func contentMatches(n1 *node, n2 *node) bool`. -/
def contentMatches (n1 n2 : node) : Bool := decide (n1.getContent = n2.getContent)

/-- Go `func areInverseOperations(n1 *node, n2 *node) bool`. -/
def areInverseOperations (n1 n2 : node) : Except Fault Bool := do
  let op1 ← n1.getOperation
  let op2 ← n2.getOperation
  if op1 = OpAdd ∧ op2 = OpDelete then pure true
  else if op2 = OpAdd ∧ op1 = OpDelete then pure true
  else pure false

/-- Go index expression `children[i]`; out of range panics. -/
def nodeAt (children : List node) (i : Int) : Except Fault node :=
  if i < 0 then .error .panic
  else
    match children.get? i.toNat with
    | some c => .ok c
    | none => .error .panic

/-- Go slice expression `newChildren[:hi]`; out of range panics. -/
def truncateTo (newChildren : List node) (hi : Int) : Except Fault (List node) :=
  if hi < 0 ∨ (newChildren.length : Int) < hi then .error .panic
  else .ok (newChildren.take hi.toNat)

/-- The `for i, child := range n.children` loop of `minimize`.  `children` is the list
being ranged over, the second argument what is left of it from index `i` on, and the last
argument is `newChildren`. -/
def minimizeLoop (children : List node) : List node → Int → List node → Except Fault (List node)
  | [], _, newChildren => .ok newChildren
  | child :: rest, i, newChildren =>
      if (newChildren ++ [child]).length < 2 then
        minimizeLoop children rest (i + 1) (newChildren ++ [child])
      else do
        let prev ← nodeAt children (i - 1)
        let inv ← areInverseOperations child prev
        if inv && contentMatches child prev then do
          let cut ← truncateTo (newChildren ++ [child]) (((newChildren ++ [child]).length : Int) - 2)
          minimizeLoop children rest (i + 1) cut
        else
          minimizeLoop children rest (i + 1) (newChildren ++ [child])

/-- The body of `if op == OpUpdate { ... }` in `minimize`: the value assigned to
`n.children`. -/
def minimizeScan (children : List node) : Except Fault (List node) :=
  minimizeLoop children children 0 []

/-- Run `f` on every element in order, stopping at the first failure. -/
def forEach (f : node → Except Fault node) : List node → Except Fault (List node)
  | [] => .ok []
  | c :: cs => do
      let c1 ← f c
      let cs1 ← forEach f cs
      pure (c1 :: cs1)

/-- Go `func (n *node) minimize() error`, as a function from the tree before to the tree
after; `fuel` bounds the recursion depth. -/
def minimizeAux : Nat → node → Except Fault node
  | 0, _ => .error .outOfFuel
  | _ + 1, leaf data => .ok (leaf data)
  | fuel + 1, block children => do
      let op ← (block children).getOperation
      let children1 ← if op = OpUpdate then minimizeScan children else pure children
      let children2 ← forEach (minimizeAux fuel) children1
      pure (block children2)

mutual
/-- Nesting depth: a leaf has depth 0, a block one more than its deepest child. -/
def node.depth : node → Nat
  | leaf _ => 0
  | block children => 1 + depthList children
/-- Largest depth in a list of nodes (0 for the empty list). -/
def depthList : List node → Nat
  | [] => 0
  | child :: rest => max child.depth (depthList rest)
end

/-- Go `func (n *node) minimize() error` with fuel for the whole depth of the tree. -/
def node.minimize (n : node) : Except Fault node := minimizeAux (n.depth + 1) n

/-! ## Building the tree -/

/-- Go `const endBanner`: 77 times U+2500, three bytes each in UTF-8. -/
def endBanner : GoString := (List.replicate 77 [226, 148, 128]).flatten

/-- Go `func (n *node) scan(scanner *bufio.Scanner) error`.  The second argument is
`n.children` on entry, the third the lines the scanner has yet to return; the result is
`n.children` on return and the lines left in the scanner.  The `error` result of the
source is `nil` on every path the model covers.  `fuel` bounds the recursion depth. -/
def scan : Nat → List node → List GoString → Except Fault (List node × List GoString)
  | 0, _, _ => .error .outOfFuel
  | _ + 1, children, [] => .ok (children, [])
  | fuel + 1, children, strLn :: rest => do
      let ln ← parseLine strLn
      if Contains ln.content endBanner then
        pure (children ++ [createLeaf ln], rest)
      else if ln.brace = BraceOpen then do
        let (sub, rest1) ← scan fuel [createLeaf ln] rest
        scan fuel (children ++ [block sub]) rest1
      else if ln.brace = BraceNone then
        scan fuel (children ++ [createLeaf ln]) rest
      else
        pure (children ++ [createLeaf ln], rest)

/-- The root of a section: `root := node{isLeaf: false}` followed by `root.scan(scanner)`. -/
def scanRoot (lines : List GoString) : Except Fault (node × List GoString) := do
  let (children, rest) ← scan (lines.length + 1) [] lines
  pure (block children, rest)

/-- Go `func scanDiff(scanner *bufio.Scanner) error`: the text printed and the lines left
in the scanner. -/
def scanDiff (lines : List GoString) : Except Fault (GoString × List GoString) := do
  let (root, rest) ← scanRoot lines
  let root1 ← root.minimize
  pure (root1.toStr, rest)

mutual
/-- Equality of trees is decidable. -/
def node.decEq : (a b : node) → Decidable (a = b)
  | leaf d1, leaf d2 =>
      if h : d1 = d2 then isTrue (by rw [h]) else isFalse (by intro e; cases e; exact h rfl)
  | leaf _, block _ => isFalse (by intro e; cases e)
  | block _, leaf _ => isFalse (by intro e; cases e)
  | block c1, block c2 =>
      match decEqList c1 c2 with
      | isTrue h => isTrue (by rw [h])
      | isFalse h => isFalse (by intro e; cases e; exact h rfl)
/-- Equality of lists of trees is decidable. -/
def decEqList : (as bs : List node) → Decidable (as = bs)
  | [], [] => isTrue rfl
  | [], _ :: _ => isFalse (by intro e; cases e)
  | _ :: _, [] => isFalse (by intro e; cases e)
  | a :: as, b :: bs =>
      match node.decEq a b, decEqList as bs with
      | isTrue h1, isTrue h2 => isTrue (by rw [h1, h2])
      | isFalse h1, _ => isFalse (by intro e; cases e; exact h1 rfl)
      | _, isFalse h2 => isFalse (by intro e; cases e; exact h2 rfl)
end

instance : DecidableEq node := node.decEq

/-! ## The reference scan of the specification -/

/-- The output-list algorithm as the specification words it: append the child to the
output list; if the list then has at least two entries and its last two entries have
opposite Added/Removed effective operations and equal effective content, drop both. -/
def specMinimizeScan : List node → List node → Except Fault (List node)
  | [], out => .ok out
  | child :: rest, out =>
      match (out ++ [child]).reverse with
      | last :: before :: _ => do
          let inv ← areInverseOperations last before
          if inv && contentMatches last before then
            specMinimizeScan rest (out ++ [child]).dropLast.dropLast
          else
            specMinimizeScan rest (out ++ [child])
      | _ => specMinimizeScan rest (out ++ [child])

/-! ## Properties of trees and of line sequences -/

/-- The test of `minimize` on a child and the child before it: operation-inverses with
equal content. -/
def inversePair (prev child : node) : Bool :=
  decide (areInverseOperations child prev = .ok true) && contentMatches child prev

/-- No child forms an inverse pair with the child before it. -/
def noInversePair : List node → Bool
  | prev :: child :: rest => !inversePair prev child && noInversePair (child :: rest)
  | _ => true

mutual
/-- Every block of the tree has at least one child. -/
def node.nonEmptyBlocks : node → Bool
  | leaf _ => true
  | block children => !children.isEmpty && nonEmptyBlocksList children
/-- Every block of every tree in the list has at least one child. -/
def nonEmptyBlocksList : List node → Bool
  | [] => true
  | child :: rest => child.nonEmptyBlocks && nonEmptyBlocksList rest
end

mutual
/-- No block of the tree whose effective operation is Updated has a child that forms an
inverse pair with the child before it. -/
def node.noCancellablePair : node → Bool
  | leaf _ => true
  | block children =>
      (decide ((block children).getOperation ≠ .ok OpUpdate) || noInversePair children) &&
        noCancellablePairList children
/-- The same for every tree in the list. -/
def noCancellablePairList : List node → Bool
  | [] => true
  | child :: rest => child.noCancellablePair && noCancellablePairList rest
end

/-- `scan` with some fuel returns `r`. -/
def Scans (acc : List node) (ls : List GoString) (r : List node × List GoString) : Prop :=
  ∃ f, scan f acc ls = .ok r

/-- How `scan` treats a line that is not a banner line: the brace role `parseLine` gives it.
`none` for a banner line and for a line on which `parseLine` panics. -/
def lineKind (s : GoString) : Option braceType :=
  match parseLine s with
  | .ok ln => if Contains ln.content endBanner then none else some ln.brace
  | .error _ => none

/-- The brace-opening lines of a sequence, in order. -/
def openLines (ls : List GoString) : List GoString :=
  ls.filter (fun s => decide (lineKind s = some BraceOpen))

/-- The brace-closing lines of a sequence, in order. -/
def closeLines (ls : List GoString) : List GoString :=
  ls.filter (fun s => decide (lineKind s = some BraceClose))

mutual
/-- The blocks of a tree in document order (the order in which `scan` opens them). -/
def node.blocks : node → List node
  | leaf _ => []
  | block children => block children :: blocksList children
/-- The blocks below a list of nodes, in document order. -/
def blocksList : List node → List node
  | [] => []
  | child :: rest => child.blocks ++ blocksList rest
end

/-- The node `b` is a block whose first child is the leaf of the line `oc.1` and whose last
child is the leaf of the line `oc.2`. -/
def blockSpans (b : node) (oc : GoString × GoString) : Prop :=
  ∃ cs lo lc, b = block cs ∧ parseLine oc.1 = .ok lo ∧ parseLine oc.2 = .ok lc ∧
    cs.head? = some (leaf lo) ∧ cs.getLast? = some (leaf lc)

/-- What may follow the lines of a level: nothing, or the closing line of the level. -/
def Ending (T : List GoString) : Prop :=
  T = [] ∨ ∃ c B2, T = c :: B2 ∧ lineKind c = some BraceClose

/-- What a level that meets the ending `T` returns: at the end of the input nothing is
left; at a closing line the lines after it are left and its leaf is the last child. -/
def EndsWith (T : List GoString) (X : List node) (rest : List GoString) : Prop :=
  (T = [] → rest = []) ∧
    ∀ c B2, T = c :: B2 → rest = B2 ∧ ∃ lc, parseLine c = .ok lc ∧ X.getLast? = some (leaf lc)

/-- The bytes `substr` stand in `s` at offset `i`. -/
def occursAt (s substr : GoString) (i : Nat) : Bool := HasPrefix (s.drop i) substr

/-- The marker byte `m`, immediately followed by ESC `[`, stands at some offset below 12. -/
def markerWithin (content : GoString) (m : Nat) : Bool :=
  (List.range 12).any (fun i => occursAt content ([m] ++ escStr) i)

/-- The operation the specification assigns to a post-indent text: `+`, then `-`, then `~`,
each followed by ESC `[` and starting below offset 12. -/
def expectedOperation (content : GoString) : opType :=
  if markerWithin content 43 then OpAdd
  else if markerWithin content 45 then OpDelete
  else if markerWithin content 126 then OpUpdate
  else OpNone

/-- Brace role of a text: Open if it ends with an opening brace, else Close if it starts
with a closing brace, else None. -/
def braceOf (content : GoString) : braceType :=
  if HasSuffix content [123] then BraceOpen
  else if HasPrefix content [125] then BraceClose
  else BraceNone

/-- The last `k` bytes of a text. -/
def lastBytes (content : GoString) (k : Nat) : GoString := content.drop (content.length - k)

mutual
/-- The lines of the leaves of a tree, left to right, depth first. -/
def node.leaves : node → List line
  | leaf data => [data]
  | block children => leavesList children
/-- The lines of the leaves below a list of nodes, in order. -/
def leavesList : List node → List line
  | [] => []
  | child :: rest => child.leaves ++ leavesList rest
end

/-- Both tokens of the trailing-null annotation, `->` and `null`, occur in the last 33
bytes of the text. -/
def trailingNullExpected (content : GoString) : Bool :=
  Contains (lastBytes content 33) (ascii "->") && Contains (lastBytes content 33) (ascii "null")

/-- The line opens a block in `scan`: its brace role is Open and its content does not
contain the end banner. -/
def opensBlock (d : line) : Bool :=
  decide (d.brace = BraceOpen) && !Contains d.content endBanner

/-- The line of the first child of a block, when that child is a leaf. -/
def firstLine : node → Option line
  | block (leaf d :: _) => some d
  | _ => none

mutual
/-- The node is a block whose first child is the leaf of a line that opens a block and
whose other children are well placed. -/
def node.opensWithLine : node → Bool
  | leaf _ => false
  | block children =>
      match children with
      | leaf d :: rest => opensBlock d && wellPlaced rest
      | _ => false
/-- No leaf of the list is the leaf of a line that opens a block, and every block of the
list opens with such a line. -/
def wellPlaced : List node → Bool
  | [] => true
  | child :: rest =>
      (match child with
        | leaf d => !opensBlock d
        | block children => (block children).opensWithLine) && wellPlaced rest
end

/-! ## Sample lines and nodes

`ESC [ 0 m` stands in for the colour sequence that follows an operation marker. -/

/-- The line `~ attr {`. -/
def lnU : GoString := ascii "~\x1b[0m attr \x7b"
/-- The line `+ value a`, indented by two. -/
def lnA : GoString := ascii "  +\x1b[0m value a"
/-- The line `- value a`, indented by two. -/
def lnR : GoString := ascii "  -\x1b[0m value a"
/-- The line `name = x`, indented by two, without marker. -/
def lnN : GoString := ascii "  name = x"
/-- The line of a closing brace. -/
def lnC : GoString := ascii "\x7d"

/-- The leaf of `lnU`. -/
def hU : node := leaf ⟨0, OpUpdate, [126], ascii "\x1b[0m attr \x7b", BraceOpen, false⟩
/-- The leaf of `lnA`. -/
def xA : node := leaf ⟨2, OpAdd, [43], ascii "\x1b[0m value a", BraceNone, false⟩
/-- The leaf of `lnR`. -/
def yR : node := leaf ⟨2, OpDelete, [45], ascii "\x1b[0m value a", BraceNone, false⟩
/-- The leaf of `lnN`. -/
def uN : node := leaf ⟨2, OpNone, [], ascii "name = x", BraceNone, false⟩
/-- The leaf of `lnC`. -/
def cN : node := leaf ⟨0, OpNone, [], ascii "\x7d", BraceClose, false⟩
/-- The leaf of the line `+ k {`. -/
def kA : node := leaf ⟨0, OpAdd, [43], ascii "\x1b[0m k \x7b", BraceOpen, false⟩
/-- The leaf of the line `- k {`. -/
def kR : node := leaf ⟨0, OpDelete, [45], ascii "\x1b[0m k \x7b", BraceOpen, false⟩
/-- The leaf of the line `~ m {`. -/
def mU : node := leaf ⟨0, OpUpdate, [126], ascii "\x1b[0m m \x7b", BraceOpen, false⟩
/-- The leaf of the line `- value b`, indented by two. -/
def yB : node := leaf ⟨2, OpDelete, [45], ascii "\x1b[0m value b", BraceNone, false⟩

/-- An updated block holding an added and a removed block that differ only by an inverse
pair nested inside the added one. -/
def nestedLines : List GoString :=
  [lnU,
    ascii "+\x1b[0m k \x7b", ascii "~\x1b[0m m \x7b", lnA, lnR, lnC, lnC,
    ascii "-\x1b[0m k \x7b", ascii "~\x1b[0m m \x7b", lnC, lnC,
    lnC]

/-- The tree `scan` builds from `nestedLines`. -/
def nestedTree : node :=
  block [block [hU,
    block [kA, block [mU, xA, yR, cN], cN],
    block [kR, block [mU, cN], cN],
    cN]]

/-- Plain and opening lines: two blocks are opened. -/
def nestOpening : List GoString := [lnN, lnU, lnN, ascii "+\x1b[0m k \x7b"]

/-- Plain and closing lines: two blocks are closed. -/
def nestClosing : List GoString := [lnA, lnC, lnN, lnC, lnN]

/-- The leaf of the end-of-section banner line. -/
def bannerLeaf : node := leaf ⟨0, OpNone, [], endBanner, BraceNone, false⟩

/-- The line `a {`, 26 spaces, ` -> null`: 37 bytes, the last 34 hold the annotation. -/
def nullAfterBrace : GoString := ascii "a \x7b" ++ List.replicate 26 32 ++ ascii " -> null"

/-- The text `-> null` followed by 27 spaces: 34 bytes with the arrow at offset 0. -/
def arrowAtWindowStart : GoString := ascii "-> null" ++ List.replicate 27 32

/-! ## The line classifier -/

theorem TrimLeft_length_le (s : GoString) : (TrimLeft s).length ≤ s.length := by
  induction s with
  | nil => simp [TrimLeft]
  | cons c cs ih =>
    unfold TrimLeft
    split
    · exact Nat.le_succ_of_le ih
    · exact Nat.le_refl _

theorem Repeat_TrimLeft (s : GoString) :
    Repeat (s.length - (TrimLeft s).length) ++ TrimLeft s = s := by
  induction s with
  | nil => simp [TrimLeft, Repeat]
  | cons c cs ih =>
    unfold TrimLeft
    split
    · rename_i hc
      have hle := TrimLeft_length_le cs
      have e : (c :: cs).length - (TrimLeft cs).length
          = (cs.length - (TrimLeft cs).length) + 1 := by
        simp only [List.length_cons]; omega
      rw [e]
      simp only [Repeat, List.replicate_succ, List.cons_append] at ih ⊢
      rw [ih, hc]
    · simp [Repeat]

theorem SplitAfterN_two_parts (sep s p0 p1 : GoString)
    (h0 : idx (SplitAfterN sep s 2) 0 = .ok p0) (h1 : idx (SplitAfterN sep s 2) 1 = .ok p1) :
    p0 ++ p1 = s := by
  unfold SplitAfterN at h0 h1
  split at h0
  · rename_i hneg
    simp [hneg, idx] at h1
  · rename_i hneg
    simp only [hneg, if_false, SplitAfterN, idx, List.get?_cons_zero, List.get?_cons_succ,
      Except.ok.injEq] at h0 h1
    rw [← h0, ← h1]
    exact List.take_append_drop _ _

theorem parseOperation_concat (content opStr rest : GoString) (op : opType)
    (h : parseOperation content = .ok (op, opStr, rest)) : opStr ++ rest = content := by
  unfold parseOperation at h
  simp only [bind, Except.bind, pure, Except.pure] at h
  split at h
  · cases h0 : idx (SplitAfterN [43] content 2) 0 with
    | error e => simp [h0] at h
    | ok p0 =>
      cases h1 : idx (SplitAfterN [43] content 2) 1 with
      | error e => simp [h0, h1] at h
      | ok p1 =>
        simp only [h0, h1, Except.ok.injEq, Prod.mk.injEq] at h
        rw [← h.2.1, ← h.2.2]
        exact SplitAfterN_two_parts _ _ _ _ h0 h1
  · split at h
    · cases h0 : idx (SplitAfterN [45] content 2) 0 with
      | error e => simp [h0] at h
      | ok p0 =>
        cases h1 : idx (SplitAfterN [45] content 2) 1 with
        | error e => simp [h0, h1] at h
        | ok p1 =>
          simp only [h0, h1, Except.ok.injEq, Prod.mk.injEq] at h
          rw [← h.2.1, ← h.2.2]
          exact SplitAfterN_two_parts _ _ _ _ h0 h1
    · split at h
      · cases h0 : idx (SplitAfterN [126] content 2) 0 with
        | error e => simp [h0] at h
        | ok p0 =>
          cases h1 : idx (SplitAfterN [126] content 2) 1 with
          | error e => simp [h0, h1] at h
          | ok p1 =>
            simp only [h0, h1, Except.ok.injEq, Prod.mk.injEq] at h
            rw [← h.2.1, ← h.2.2]
            exact SplitAfterN_two_parts _ _ _ _ h0 h1
      · simp only [Except.ok.injEq, Prod.mk.injEq] at h
        rw [← h.2.1, ← h.2.2]
        rfl

theorem parseTrailingNull_false (content rest : GoString)
    (h : parseTrailingNull content = .ok (false, rest)) : rest = content := by
  unfold parseTrailingNull at h
  simp only [bind, Except.bind, pure, Except.pure] at h
  split at h
  · cases hs : sliceTo content ((content.length : Int) - 34) with
    | error e => simp [hs] at h
    | ok c => simp [hs] at h
  · simp only [Except.ok.injEq, Prod.mk.injEq, true_and] at h
    exact h.symm

/-- What `parseLine` returns, in terms of the results of its two helpers. -/
theorem parseLine_ok (s : GoString) (ln : line) (h : parseLine s = .ok ln) :
    ∃ op opStr c1 hasNull c2,
      parseOperation (TrimLeft s) = .ok (op, opStr, c1) ∧
      parseTrailingNull c1 = .ok (hasNull, c2) ∧
      ln = { indentCount := s.length - (TrimLeft s).length
             operation := op
             opStr := opStr
             content := c2
             brace := if HasSuffix c1 [123] then BraceOpen
                      else if HasPrefix c1 [125] then BraceClose else BraceNone
             hasTrailingNull := hasNull } := by
  unfold parseLine at h
  simp only [bind, Except.bind, pure, Except.pure] at h
  cases hp : parseOperation (TrimLeft s) with
  | error e => simp [hp] at h
  | ok r =>
    obtain ⟨op, opStr, c1⟩ := r
    simp only [hp] at h
    cases ht : parseTrailingNull c1 with
    | error e => simp [ht] at h
    | ok r2 =>
      obtain ⟨hasNull, c2⟩ := r2
      simp only [ht, Except.ok.injEq] at h
      exact ⟨op, opStr, c1, hasNull, c2, rfl, ht, h.symm⟩

/-- C1. Whenever `parseLine` classifies a line `s` without detecting a trailing-null
annotation, rendering the classified line gives back `s` followed by one newline.  Lines
with no operation marker and no brace are among these lines. -/
theorem parseLine_toStr_roundtrip (s : GoString) (ln : line)
    (h : parseLine s = .ok ln) (hnull : ln.hasTrailingNull = false) :
    ln.toStr = s ++ [10] := by
  obtain ⟨op, opStr, c1, hasNull, c2, hp, ht, rfl⟩ := parseLine_ok s ln h
  simp only at hnull
  subst hnull
  have e2 := parseTrailingNull_false c1 c2 ht
  have e1 := parseOperation_concat _ _ _ _ hp
  subst e2
  simp only [line.toStr]
  rw [List.append_assoc (Repeat _), e1, Repeat_TrimLeft]

/-- An indented line without marker and brace is rendered as it was read. -/
theorem parseLine_toStr_roundtrip_witness :
    parseLine (ascii "    resource x") =
        .ok ⟨4, OpNone, [], ascii "resource x", BraceNone, false⟩ ∧
      (⟨4, OpNone, [], ascii "resource x", BraceNone, false⟩ : line).toStr =
        ascii "    resource x" ++ [10] :=
  ⟨by decide, parseLine_toStr_roundtrip (ascii "    resource x") _ (by decide) (by decide)⟩

/-- C2. The line `-> null` (7 bytes) contains both `->` and `null`; `parseTrailingNull`
evaluates `content[:len(content)-34]` with a negative bound and `parseLine` panics. -/
theorem parseLine_short_arrow_null_panics :
    parseTrailingNull (ascii "-> null") = .error .panic ∧
      parseLine (ascii "-> null") = .error .panic := by
  decide

/-! ## Fuel of `minimize` -/

theorem minimize_block_unfold (cs : List node) :
    (block cs).minimize =
      (do let op ← (block cs).getOperation
          let children1 ← if op = OpUpdate then minimizeScan cs else pure cs
          let children2 ← forEach (minimizeAux (1 + depthList cs)) children1
          pure (block children2)) := rfl

theorem Except_bind_ok {α β : Type} {x : Except Fault α} {f : α → Except Fault β} {b : β} :
    (x >>= f) = .ok b ↔ ∃ a, x = .ok a ∧ f a = .ok b := by
  cases x with
  | error e => simp [bind, Except.bind]
  | ok a => simp [bind, Except.bind]

theorem Except_bind_error {α β : Type} {x : Except Fault α} {f : α → Except Fault β}
    {e : Fault} :
    (x >>= f) = .error e ↔ x = .error e ∨ ∃ a, x = .ok a ∧ f a = .error e := by
  cases x with
  | error e => simp [bind, Except.bind]
  | ok a => simp [bind, Except.bind]

theorem forEach_congr (f g : node → Except Fault node) (cs : List node)
    (h : ∀ c ∈ cs, f c = g c) : forEach f cs = forEach g cs := by
  induction cs with
  | nil => rfl
  | cons c cs ih =>
    simp only [forEach]
    rw [h c (List.mem_cons_self _ _), ih (fun d hd => h d (List.mem_cons_of_mem _ hd))]

theorem depth_le_depthList (c : node) (cs : List node) (h : c ∈ cs) :
    c.depth ≤ depthList cs := by
  induction cs with
  | nil => cases h
  | cons d ds ih =>
    simp only [depthList]
    rcases List.mem_cons.mp h with rfl | h
    · exact Nat.le_max_left _ _
    · exact Nat.le_trans (ih h) (Nat.le_max_right _ _)

theorem truncateTo_mem (l out : List node) (hi : Int) (h : truncateTo l hi = .ok out) :
    ∀ c ∈ out, c ∈ l := by
  unfold truncateTo at h
  split at h
  · cases h
  · simp only [Except.ok.injEq] at h
    subst h
    intro c hc
    exact List.mem_of_mem_take hc

/-- Everything the loop of `minimize` returns was in `newChildren` or still to be visited. -/
theorem minimizeLoop_mem (children : List node) :
    ∀ (rest : List node) (i : Int) (newChildren out : List node),
      minimizeLoop children rest i newChildren = .ok out →
      ∀ c ∈ out, c ∈ newChildren ∨ c ∈ rest := by
  intro rest
  induction rest with
  | nil =>
    intro i newChildren out h c hc
    simp only [minimizeLoop, Except.ok.injEq] at h
    subst h
    exact Or.inl hc
  | cons child rest ih =>
    intro i newChildren out h c hc
    have key : ∀ l : List node, (∀ d ∈ l, d ∈ newChildren ++ [child]) →
        minimizeLoop children rest (i + 1) l = .ok out →
        c ∈ newChildren ∨ c ∈ child :: rest := by
      intro l hl hl2
      rcases ih (i + 1) l out hl2 c hc with h1 | h1
      · rcases List.mem_append.mp (hl c h1) with h2 | h2
        · exact Or.inl h2
        · rw [List.mem_singleton] at h2
          exact Or.inr (h2 ▸ List.mem_cons_self _ _)
      · exact Or.inr (List.mem_cons_of_mem _ h1)
    unfold minimizeLoop at h
    split at h
    · exact key _ (fun d hd => hd) h
    · simp only [bind, Except.bind] at h
      cases hp : nodeAt children (i - 1) with
      | error e => simp [hp] at h
      | ok prev =>
        simp only [hp] at h
        cases hv : areInverseOperations child prev with
        | error e => simp [hv] at h
        | ok inv =>
          simp only [hv] at h
          split at h
          · split at h
            · cases h
            · rename_i cut ht
              exact key cut (truncateTo_mem _ _ _ ht) h
          · exact key _ (fun d hd => hd) h

theorem minimizeScan_mem (cs out : List node) (h : minimizeScan cs = .ok out) :
    ∀ c ∈ out, c ∈ cs := by
  intro c hc
  rcases minimizeLoop_mem cs cs 0 [] out h c hc with h1 | h1
  · cases h1
  · exact h1

/-- One more unit of fuel changes nothing once the fuel exceeds the depth. -/
theorem minimizeAux_succ (f : Nat) : ∀ n : node, n.depth < f →
    minimizeAux (f + 1) n = minimizeAux f n := by
  induction f with
  | zero => intro n h; cases h
  | succ f ih =>
    intro n h
    cases n with
    | leaf d => rfl
    | block cs =>
      simp only [node.depth] at h
      have hd : ∀ c ∈ cs, c.depth < f := fun c hc =>
        Nat.lt_of_le_of_lt (depth_le_depthList c cs hc) (by omega)
      simp only [minimizeAux, bind, Except.bind]
      cases (block cs).getOperation with
      | error e => rfl
      | ok op =>
        simp only []
        by_cases hop : op = OpUpdate
        · simp only [hop, if_true]
          cases hs : minimizeScan cs with
          | error e => rfl
          | ok cs1 =>
            simp only []
            rw [forEach_congr (minimizeAux (f + 1)) (minimizeAux f) cs1
              (fun c hc => ih c (hd c (minimizeScan_mem cs cs1 hs c hc)))]
        · simp only [hop, if_false, pure, Except.pure]
          rw [forEach_congr (minimizeAux (f + 1)) (minimizeAux f) cs
            (fun c hc => ih c (hd c hc))]

/-- Any fuel above the depth gives the result of `minimize`. -/
theorem minimizeAux_eq_minimize (f : Nat) (n : node) (h : n.depth < f) :
    minimizeAux f n = n.minimize := by
  induction f with
  | zero => cases h
  | succ f ih =>
    by_cases hf : n.depth < f
    · rw [minimizeAux_succ f n hf]; exact ih hf
    · have : f = n.depth := by omega
      subst this
      rfl

/-- The recursion of `minimize`, free of fuel: scan the children when the effective
operation is Updated, then minimize every remaining child. -/
theorem minimize_block (cs : List node) :
    (block cs).minimize =
      (do let op ← (block cs).getOperation
          let children1 ← if op = OpUpdate then minimizeScan cs else pure cs
          let children2 ← forEach node.minimize children1
          pure (block children2)) := by
  rw [minimize_block_unfold]
  simp only [bind, Except.bind]
  cases (block cs).getOperation with
  | error e => rfl
  | ok op =>
    simp only []
    have hd : ∀ c ∈ cs, minimizeAux (1 + depthList cs) c = c.minimize := fun c hc =>
      minimizeAux_eq_minimize _ c
        (Nat.lt_of_le_of_lt (depth_le_depthList c cs hc) (by omega))
    by_cases hop : op = OpUpdate
    · simp only [hop, if_true]
      cases hs : minimizeScan cs with
      | error e => rfl
      | ok cs1 =>
        simp only []
        rw [forEach_congr (minimizeAux (1 + depthList cs)) node.minimize cs1
          (fun c hc => hd c (minimizeScan_mem cs cs1 hs c hc))]
    · simp only [hop, if_false, pure, Except.pure]
      rw [forEach_congr (minimizeAux (1 + depthList cs)) node.minimize cs hd]

theorem minimize_leaf (d : line) : (leaf d).minimize = .ok (leaf d) := rfl

theorem getOperation_error : ∀ (n : node) (e : Fault), n.getOperation = .error e → e = .panic
  | leaf d, e, h => by simp [node.getOperation] at h
  | block [], e, h => by
      simp only [node.getOperation, Except.error.injEq] at h
      exact h.symm
  | block (c :: _), e, h => getOperation_error c e (by simpa only [node.getOperation] using h)

theorem areInverseOperations_error (n1 n2 : node) (e : Fault)
    (h : areInverseOperations n1 n2 = .error e) : e = .panic := by
  unfold areInverseOperations at h
  simp only [bind, Except.bind, pure, Except.pure] at h
  cases h1 : n1.getOperation with
  | error e1 =>
    simp only [h1, Except.error.injEq] at h
    subst h
    exact getOperation_error n1 _ h1
  | ok op1 =>
    simp only [h1] at h
    cases h2 : n2.getOperation with
    | error e2 =>
      simp only [h2, Except.error.injEq] at h
      subst h
      exact getOperation_error n2 _ h2
    | ok op2 =>
      simp only [h2] at h
      split at h
      · cases h
      · split at h <;> cases h

theorem nodeAt_error (cs : List node) (i : Int) (e : Fault)
    (h : nodeAt cs i = .error e) : e = .panic := by
  unfold nodeAt at h
  split at h
  · cases h; rfl
  · split at h
    · cases h
    · cases h; rfl

theorem truncateTo_error (l : List node) (hi : Int) (e : Fault)
    (h : truncateTo l hi = .error e) : e = .panic := by
  unfold truncateTo at h
  split at h
  · cases h; rfl
  · cases h

theorem minimizeLoop_error (children : List node) :
    ∀ (rest : List node) (i : Int) (newChildren : List node) (e : Fault),
      minimizeLoop children rest i newChildren = .error e → e = .panic := by
  intro rest
  induction rest with
  | nil => intro i newChildren e h; simp [minimizeLoop] at h
  | cons child rest ih =>
    intro i newChildren e h
    unfold minimizeLoop at h
    split at h
    · exact ih _ _ _ h
    · simp only [bind, Except.bind] at h
      split at h
      · rename_i e1 hp
        cases h
        exact nodeAt_error _ _ _ hp
      · split at h
        · rename_i e1 hv
          cases h
          exact areInverseOperations_error _ _ _ hv
        · split at h
          · split at h
            · rename_i e1 ht
              cases h
              exact truncateTo_error _ _ _ ht
            · exact ih _ _ _ h
          · exact ih _ _ _ h

theorem forEach_error (f : node → Except Fault node) (cs : List node) (e : Fault)
    (h : forEach f cs = .error e) : ∃ c ∈ cs, f c = .error e := by
  induction cs with
  | nil => simp [forEach] at h
  | cons c cs ih =>
    simp only [forEach, bind, Except.bind, pure, Except.pure] at h
    split at h
    · rename_i e1 hc
      cases h
      exact ⟨c, List.mem_cons_self _ _, hc⟩
    · split at h
      · rename_i e1 hcs
        cases h
        obtain ⟨d, hd, hfd⟩ := ih hcs
        exact ⟨d, List.mem_cons_of_mem _ hd, hfd⟩
      · cases h

/-- With fuel above the depth, `minimizeAux` fails only by a panic. -/
theorem minimizeAux_error : ∀ (f : Nat) (n : node) (e : Fault), n.depth < f →
    minimizeAux f n = .error e → e = .panic := by
  intro f
  induction f with
  | zero => intro n e h; cases h
  | succ f ih =>
    intro n e h he
    cases n with
    | leaf d => cases he
    | block cs =>
      simp only [node.depth] at h
      have hd : ∀ c ∈ cs, c.depth < f := fun c hc =>
        Nat.lt_of_le_of_lt (depth_le_depthList c cs hc) (by omega)
      simp only [minimizeAux] at he
      rcases Except_bind_error.mp he with hop | ⟨op, hop, he⟩
      · exact getOperation_error _ _ hop
      · have fin : ∀ cs1 : List node, (∀ c ∈ cs1, c ∈ cs) →
            (forEach (minimizeAux f) cs1 >>= fun children2 => pure (block children2))
              = Except.error e → e = .panic := by
          intro cs1 hsub h1
          rcases Except_bind_error.mp h1 with hfe | ⟨cs2, hfe, h2⟩
          · obtain ⟨c, hc, hfc⟩ := forEach_error _ _ _ hfe
            exact ih c _ (hd c (hsub c hc)) hfc
          · cases h2
        split at he
        · rcases Except_bind_error.mp he with hs | ⟨cs1, hs, he⟩
          · exact minimizeLoop_error _ _ _ _ _ hs
          · exact fin cs1 (minimizeScan_mem cs cs1 hs) he
        · rcases Except_bind_error.mp he with hs | ⟨cs1, hs, he⟩
          · cases hs
          · cases hs
            exact fin cs (fun c hc => hc) he

/-- Failure of `minimize` is always a panic of the source, never exhausted fuel. -/
theorem minimize_error (n : node) (e : Fault) (h : n.minimize = .error e) : e = .panic :=
  minimizeAux_error _ n e (Nat.lt_succ_self _) h

/-! ## The scan of `minimize` -/

theorem forEach_ok_iff (f : node → Except Fault node) (cs cs1 : List node) :
    forEach f cs = .ok cs1 ↔ List.Forall₂ (fun c c1 => f c = .ok c1) cs cs1 := by
  induction cs generalizing cs1 with
  | nil =>
    simp only [forEach, Except.ok.injEq]
    constructor
    · intro h; subst h; exact List.Forall₂.nil
    · intro h; cases h; rfl
  | cons c cs ih =>
    simp only [forEach]
    rw [Except_bind_ok]
    constructor
    · rintro ⟨c1, hc, h⟩
      rw [Except_bind_ok] at h
      obtain ⟨cs2, hcs, h⟩ := h
      cases h
      exact List.Forall₂.cons hc ((ih cs2).mp hcs)
    · intro h
      cases h with
      | cons hc hcs =>
        rename_i c1 cs2
        exact ⟨c1, hc, Except_bind_ok.mpr ⟨cs2, (ih cs2).mpr hcs, rfl⟩⟩

/-- C3. On the children `~ attr {`, `+ value a`, `- value a`, `+ value a` (the tree `scan`
builds from these four lines) the loop of `minimize` returns the empty list, while the
output-list algorithm of the specification returns the opening line and the last line:
the loop compares the new child with `n.children[i-1]`, not with the entry before it in
the output list. -/
theorem minimizeScan_differs_from_reference :
    scanRoot [lnU, lnA, lnR, lnA] = .ok (block [block [hU, xA, yR, xA]], []) ∧
      minimizeScan [hU, xA, yR, xA] = .ok [] ∧
      specMinimizeScan [hU, xA, yR, xA] [] = .ok [hU, xA] := by
  decide

/-- C4. In the Updated block with children `~ attr {`, `name = x`, `+ value a`,
`- value a`, `+ value a`, `minimize` removes the unmarked line `name = x`, whose operation
is None. -/
theorem minimize_removes_unmarked_line :
    (block [hU, uN, xA, yR, xA]).getOperation = .ok OpUpdate ∧
      (block [hU, uN, xA, yR, xA]).minimize = .ok (block [hU]) ∧
      uN ∈ [hU, uN, xA, yR, xA] ∧ uN ∉ [hU] ∧ uN.getOperation = .ok OpNone := by
  decide

theorem minimizeScan_four (dh dc : line) (x y : node)
    (hh : dh.operation = OpUpdate) (hc : dc.operation = OpNone)
    (hops : (x.getOperation = .ok OpAdd ∧ y.getOperation = .ok OpDelete) ∨
      (x.getOperation = .ok OpDelete ∧ y.getOperation = .ok OpAdd))
    (hcont : x.getContent = y.getContent) :
    minimizeScan [leaf dh, x, y, leaf dc] = .ok [leaf dh, leaf dc] := by
  rcases hops with ⟨hx, hy⟩ | ⟨hx, hy⟩ <;>
    simp [minimizeScan, minimizeLoop, nodeAt, areInverseOperations, node.getOperation,
      contentMatches, truncateTo, bind, Except.bind, pure, Except.pure, hh, hc, hx, hy, hcont]

/-- C5. In a block whose children are the opening line `h` (operation Updated), two nodes
`x`, `y` of which one has effective operation Added and the other Removed, with equal
effective content, and a closing leaf `c` with operation None, `minimize` leaves exactly
`[h, c]`, and the result renders as the opening line followed by the closing line. -/
theorem minimize_cancels_inverse_pair (dh dc : line) (x y : node)
    (hh : dh.operation = OpUpdate) (hc : dc.operation = OpNone)
    (hops : (x.getOperation = .ok OpAdd ∧ y.getOperation = .ok OpDelete) ∨
      (x.getOperation = .ok OpDelete ∧ y.getOperation = .ok OpAdd))
    (hcont : x.getContent = y.getContent) :
    (block [leaf dh, x, y, leaf dc]).getOperation = .ok OpUpdate ∧
      (block [leaf dh, x, y, leaf dc]).minimize = .ok (block [leaf dh, leaf dc]) ∧
      (block [leaf dh, leaf dc]).toStr = dh.toStr ++ dc.toStr := by
  refine ⟨by simp [node.getOperation, hh], ?_, by simp [node.toStr, toStrList]⟩
  rw [minimize_block]
  simp [node.getOperation, hh, minimizeScan_four dh dc x y hh hc hops hcont, forEach,
    minimize_leaf, bind, Except.bind, pure, Except.pure]

/-- An added and a removed block with the same content vanish from an updated block. -/
theorem minimize_cancels_inverse_pair_witness :
    (block [kA, cN]).getOperation = .ok OpAdd ∧ (block [kR, cN]).getOperation = .ok OpDelete ∧
      (block [kA, cN]).getContent = (block [kR, cN]).getContent ∧
      (block [hU, block [kA, cN], block [kR, cN], cN]).getOperation = .ok OpUpdate ∧
      (block [hU, block [kA, cN], block [kR, cN], cN]).minimize = .ok (block [hU, cN]) ∧
      (block [hU, cN]).toStr = lnU ++ [10] ++ (lnC ++ [10]) :=
  ⟨by decide, by decide, by decide,
    minimize_cancels_inverse_pair
      ⟨0, OpUpdate, [126], ascii "\x1b[0m attr \x7b", BraceOpen, false⟩
      ⟨0, OpNone, [], ascii "\x7d", BraceClose, false⟩
      (block [kA, cN]) (block [kR, cN])
      (by decide) (by decide) (Or.inl ⟨by decide, by decide⟩) (by decide)⟩

theorem areInverseOperations_defined (n1 n2 : node) (op1 op2 : opType)
    (h1 : n1.getOperation = .ok op1) (h2 : n2.getOperation = .ok op2) :
    ∃ b, areInverseOperations n1 n2 = .ok b := by
  unfold areInverseOperations
  simp only [h1, h2, bind, Except.bind, pure, Except.pure]
  split
  · exact ⟨true, rfl⟩
  · split
    · exact ⟨true, rfl⟩
    · exact ⟨false, rfl⟩

theorem isOk_getOperation (n : node) (h : n.getOperation.isOk = true) :
    ∃ op, n.getOperation = .ok op := by
  cases hn : n.getOperation with
  | error e => simp [hn, Except.isOk, Except.toBool] at h
  | ok op => exact ⟨op, rfl⟩

theorem noInversePair_at (p : List node) (a b : node) (r : List node)
    (h : noInversePair (p ++ a :: b :: r) = true) : inversePair a b = false := by
  induction p with
  | nil =>
    simp only [List.nil_append, noInversePair, Bool.and_eq_true, Bool.not_eq_true'] at h
    exact h.1
  | cons c p ih =>
    cases p with
    | nil =>
      simp only [List.cons_append, List.nil_append, noInversePair, Bool.and_eq_true] at h
      exact ih (by simpa [noInversePair] using h.2)
    | cons d p =>
      simp only [List.cons_append, noInversePair, Bool.and_eq_true] at h
      exact ih (by simpa [noInversePair] using h.2)

theorem nodeAt_append_length (p : List node) (a : node) (r : List node) :
    nodeAt (p ++ a :: r) ((p.length : Int)) = .ok a := by
  unfold nodeAt
  have h : ¬ ((p.length : Int) < 0) := by omega
  have hg : (p ++ a :: r).get? p.length = some a := by
    induction p with
    | nil => rfl
    | cons b p ih => simpa using ih
  simp only [h, if_false, Int.toNat_ofNat, hg]

/-- The loop of `minimize` keeps every child when every child has an effective operation and
no child forms an inverse pair with the child before it. -/
theorem minimizeLoop_keeps (cs : List node)
    (hdef : ∀ c ∈ cs, c.getOperation.isOk = true)
    (hno : noInversePair cs = true) :
    ∀ (rest pre : List node), cs = pre ++ rest →
      minimizeLoop cs rest (pre.length : Int) pre = .ok cs := by
  intro rest
  induction rest with
  | nil =>
    intro pre h
    simp only [List.append_nil] at h
    subst h
    rfl
  | cons child rest ih =>
    intro pre h
    have hnext : minimizeLoop cs rest ((pre.length : Int) + 1) (pre ++ [child]) = .ok cs := by
      have := ih (pre ++ [child]) (by simp [h])
      simpa using this
    unfold minimizeLoop
    split
    · exact hnext
    · rename_i hlen
      have hpre : pre ≠ [] := by
        intro e
        subst e
        simp at hlen
      obtain ⟨p, a, rfl⟩ : ∃ p a, pre = p ++ [a] :=
        ⟨pre.dropLast, pre.getLast hpre, (List.dropLast_append_getLast hpre).symm⟩
      have hcs : cs = p ++ a :: child :: rest := by simp [h]
      have hat : nodeAt cs (((p ++ [a]).length : Int) - 1) = .ok a := by
        rw [hcs]
        have e : (((p ++ [a]).length : Int) - 1) = (p.length : Int) := by
          simp
        rw [e]
        exact nodeAt_append_length p a _
      obtain ⟨opa, hopa⟩ := isOk_getOperation a (hdef a (by simp [hcs]))
      obtain ⟨opc, hopc⟩ := isOk_getOperation child (hdef child (by simp [hcs]))
      obtain ⟨b, hb⟩ := areInverseOperations_defined child a opc opa hopc hopa
      have hpair : inversePair a child = false := by
        rw [hcs] at hno
        exact noInversePair_at p a child rest hno
      have hfalse : (b && contentMatches child a) = false := by
        unfold inversePair at hpair
        rw [hb] at hpair
        cases b <;> simp at hpair ⊢
        exact hpair
      simp only [hat, hb, hfalse, bind, Except.bind]
      exact hnext

/-- C6. In a block whose effective operation is Updated, whose children all have an
effective operation and in which no two adjacent children are at once operation-inverses
and equal in effective content, the scan of `minimize` removes nothing: the child list it
returns is the child list it was given, and `minimize` only minimizes the children in
place. -/
theorem minimize_keeps_without_inverse_pair (cs : List node)
    (hop : (block cs).getOperation = .ok OpUpdate)
    (hdef : ∀ c ∈ cs, c.getOperation.isOk = true)
    (hno : noInversePair cs = true) :
    minimizeScan cs = .ok cs ∧
      (block cs).minimize = (forEach node.minimize cs).map block := by
  have hs : minimizeScan cs = .ok cs := minimizeLoop_keeps cs hdef hno cs [] rfl
  refine ⟨hs, ?_⟩
  rw [minimize_block]
  simp only [hop, hs, bind, Except.bind, if_true, pure, Except.pure, Except.map]

/-- Two added lines with equal content and a removed line with other content all stay. -/
theorem minimize_keeps_without_inverse_pair_witness :
    (block [hU, xA, xA, yB, cN]).getOperation = .ok OpUpdate ∧
      noInversePair [hU, xA, xA, yB, cN] = true ∧
      minimizeScan [hU, xA, xA, yB, cN] = .ok [hU, xA, xA, yB, cN] ∧
      (block [hU, xA, xA, yB, cN]).minimize =
        (forEach node.minimize [hU, xA, xA, yB, cN]).map block :=
  ⟨by decide, by decide,
    minimize_keeps_without_inverse_pair [hU, xA, xA, yB, cN]
      (by decide) (by decide) (by decide)⟩

/-- C8. For a block whose effective operation is defined and is not Updated, `minimize`
keeps the child list and replaces every child, in order, by its minimized form; the
result exists exactly when every child has a minimized form. -/
theorem minimize_not_updated_maps_children (cs : List node) (op : opType)
    (hop : (block cs).getOperation = .ok op) (hne : op ≠ OpUpdate) :
    (block cs).minimize = (forEach node.minimize cs).map block ∧
      ∀ cs1, (block cs).minimize = .ok (block cs1) ↔
        List.Forall₂ (fun c c1 => c.minimize = .ok c1) cs cs1 := by
  have h : (block cs).minimize = (forEach node.minimize cs).map block := by
    rw [minimize_block]
    simp only [hop, hne, bind, Except.bind, if_false, pure, Except.pure, Except.map]
  refine ⟨h, fun cs1 => ?_⟩
  rw [h, ← forEach_ok_iff]
  cases forEach node.minimize cs with
  | error e => simp [Except.map]
  | ok v => simp [Except.map]

/-- The inverse pair inside an updated block nested in an added block is removed. -/
theorem minimize_not_updated_maps_children_witness :
    (block [kA, block [hU, xA, yR, cN], cN]).getOperation = .ok OpAdd ∧
      (block [kA, block [hU, xA, yR, cN], cN]).minimize =
        .ok (block [kA, block [hU, cN], cN]) := by
  refine ⟨by decide, ?_⟩
  rw [(minimize_not_updated_maps_children [kA, block [hU, xA, yR, cN], cN] OpAdd
    (by decide) (by decide)).1]
  decide

/-! ## Running `minimize` again -/

theorem nonEmptyBlocks_getOperation : ∀ n : node, n.nonEmptyBlocks = true →
    n.getOperation.isOk = true
  | leaf _, _ => rfl
  | block [], h => by simp [node.nonEmptyBlocks] at h
  | block (c :: _), h => by
      simp only [node.nonEmptyBlocks, nonEmptyBlocksList, Bool.and_eq_true] at h
      simpa only [node.getOperation] using nonEmptyBlocks_getOperation c h.2.1

theorem nonEmptyBlocksList_mem (cs : List node) (h : nonEmptyBlocksList cs = true) :
    ∀ c ∈ cs, c.nonEmptyBlocks = true := by
  induction cs with
  | nil => intro c hc; cases hc
  | cons d ds ih =>
    simp only [nonEmptyBlocksList, Bool.and_eq_true] at h
    intro c hc
    rcases List.mem_cons.mp hc with rfl | hc
    · exact h.1
    · exact ih h.2 c hc

mutual
theorem minimize_fixed_node : ∀ n : node, n.nonEmptyBlocks = true →
    n.noCancellablePair = true → n.minimize = .ok n
  | leaf _, _, _ => rfl
  | block cs, h1, h2 => by
      have hop := nonEmptyBlocks_getOperation (block cs) h1
      obtain ⟨op, hop⟩ := isOk_getOperation _ hop
      simp only [node.nonEmptyBlocks, Bool.and_eq_true] at h1
      simp only [node.noCancellablePair, Bool.and_eq_true, Bool.or_eq_true,
        decide_eq_true_eq] at h2
      have hkids := minimize_fixed_list cs h1.2 h2.2
      rw [minimize_block]
      by_cases hu : op = OpUpdate
      · subst hu
        have hno : noInversePair cs = true := by
          rcases h2.1 with h | h
          · exact absurd hop h
          · exact h
        have hs : minimizeScan cs = .ok cs :=
          minimizeLoop_keeps cs
            (fun c hc => nonEmptyBlocks_getOperation c (nonEmptyBlocksList_mem cs h1.2 c hc))
            hno cs [] rfl
        simp only [hop, hs, hkids, bind, Except.bind, if_true, pure, Except.pure]
      · simp only [hop, hu, hkids, bind, Except.bind, if_false, pure, Except.pure]
theorem minimize_fixed_list : ∀ cs : List node, nonEmptyBlocksList cs = true →
    noCancellablePairList cs = true → forEach node.minimize cs = .ok cs
  | [], _, _ => rfl
  | c :: cs, h1, h2 => by
      simp only [nonEmptyBlocksList, Bool.and_eq_true] at h1
      simp only [noCancellablePairList, Bool.and_eq_true] at h2
      simp only [forEach, minimize_fixed_node c h1.1 h2.1, minimize_fixed_list cs h1.2 h2.2,
        bind, Except.bind, pure, Except.pure]
end

/-- C7, as the code has it. A tree in which every block has a child and no block with
effective operation Updated has two adjacent children that are operation-inverses with
equal effective content is left unchanged by `minimize`: the run completes and returns the
very same tree. -/
theorem minimize_fixed_without_inverse_pair (n : node)
    (hne : n.nonEmptyBlocks = true) (hno : n.noCancellablePair = true) :
    n.minimize = .ok n :=
  minimize_fixed_node n hne hno

/-- An updated block holding its opening and closing line only is a fixed point. -/
theorem minimize_fixed_without_inverse_pair_witness :
    (block [block [hU, cN]]).nonEmptyBlocks = true ∧
      (block [block [hU, cN]]).noCancellablePair = true ∧
      (block [block [hU, cN]]).minimize = .ok (block [block [hU, cN]]) :=
  ⟨by decide, by decide,
    minimize_fixed_without_inverse_pair (block [block [hU, cN]]) (by decide) (by decide)⟩

/-- C7, counterexample. For the tree built by `scan` from `nestedLines` the first run of
`minimize` removes the inverse pair nested in the added block `k`; only then do the added
and the removed block `k` have equal content, so a second run removes both of them:
`minimize (minimize t) ≠ minimize t`. -/
theorem minimize_twice_changes_again :
    scanRoot nestedLines = .ok (nestedTree, []) ∧
      nestedTree.minimize =
        .ok (block [block [hU, block [kA, block [mU, cN], cN],
          block [kR, block [mU, cN], cN], cN]]) ∧
      (block [block [hU, block [kA, block [mU, cN], cN],
          block [kR, block [mU, cN], cN], cN]]).minimize = .ok (block [block [hU, cN]]) ∧
      block [block [hU, cN]] ≠
        block [block [hU, block [kA, block [mU, cN], cN],
          block [kR, block [mU, cN], cN], cN]] := by
  decide

/-! ## The end-of-section banner -/

set_option maxRecDepth 100000 in
/-- C9. A banner line read inside a block ends that block only: from the lines `~ attr {`,
the banner, `name = x`, the scan of the section returns with the line after the banner
consumed and appended to the root. -/
theorem scan_continues_after_nested_banner :
    scanRoot [lnU, endBanner, lnN] = .ok (block [block [hU, bannerLeaf], uN], []) := by
  decide

/-! ## The recursion of `scan` -/

theorem scan_nil (f : Nat) (acc : List node) : scan (f + 1) acc [] = .ok (acc, []) := rfl

theorem scan_cons_error (f : Nat) (acc : List node) (s : GoString) (rest : List GoString)
    (e : Fault) (hp : parseLine s = .error e) : scan (f + 1) acc (s :: rest) = .error e := by
  simp only [scan, hp, bind, Except.bind]

theorem scan_cons_banner (f : Nat) (acc : List node) (s : GoString) (rest : List GoString)
    (ln : line) (hp : parseLine s = .ok ln) (hb : Contains ln.content endBanner = true) :
    scan (f + 1) acc (s :: rest) = .ok (acc ++ [leaf ln], rest) := by
  simp only [scan, hp, hb, bind, Except.bind, if_true, pure, Except.pure, createLeaf]

theorem scan_cons_open (f : Nat) (acc : List node) (s : GoString) (rest : List GoString)
    (ln : line) (hp : parseLine s = .ok ln) (hb : Contains ln.content endBanner = false)
    (hbr : ln.brace = BraceOpen) :
    scan (f + 1) acc (s :: rest) =
      (scan f [leaf ln] rest >>= fun r => scan f (acc ++ [block r.1]) r.2) := by
  simp only [scan, hp, hb, hbr, bind, Except.bind, if_true, createLeaf]
  cases scan f [leaf ln] rest with
  | error e => simp
  | ok r => simp

theorem scan_cons_plain (f : Nat) (acc : List node) (s : GoString) (rest : List GoString)
    (ln : line) (hp : parseLine s = .ok ln) (hb : Contains ln.content endBanner = false)
    (hbr : ln.brace = BraceNone) :
    scan (f + 1) acc (s :: rest) = scan f (acc ++ [leaf ln]) rest := by
  simp [scan, hp, hb, hbr, bind, Except.bind, createLeaf]

theorem scan_cons_close (f : Nat) (acc : List node) (s : GoString) (rest : List GoString)
    (ln : line) (hp : parseLine s = .ok ln) (hb : Contains ln.content endBanner = false)
    (hbr : ln.brace = BraceClose) :
    scan (f + 1) acc (s :: rest) = .ok (acc ++ [leaf ln], rest) := by
  simp [scan, hp, hb, hbr, bind, Except.bind, pure, Except.pure, createLeaf]

/-- One more unit of fuel changes nothing once `scan` does not run out of it. -/
theorem scan_succ (f : Nat) : ∀ (acc : List node) (ls : List GoString),
    scan f acc ls ≠ .error .outOfFuel → scan (f + 1) acc ls = scan f acc ls := by
  induction f with
  | zero => intro acc ls h; exact absurd rfl h
  | succ f ih =>
    intro acc ls h
    cases ls with
    | nil => rfl
    | cons s rest =>
      cases hp : parseLine s with
      | error e => rw [scan_cons_error _ _ _ _ _ hp, scan_cons_error _ _ _ _ _ hp]
      | ok ln =>
        cases hb : Contains ln.content endBanner with
        | true => rw [scan_cons_banner _ _ _ _ _ hp hb, scan_cons_banner _ _ _ _ _ hp hb]
        | false =>
          cases hbr : ln.brace with
          | BraceNone =>
            rw [scan_cons_plain _ _ _ _ _ hp hb hbr] at h ⊢
            rw [scan_cons_plain _ _ _ _ _ hp hb hbr]
            exact ih _ _ h
          | BraceClose =>
            rw [scan_cons_close _ _ _ _ _ hp hb hbr, scan_cons_close _ _ _ _ _ hp hb hbr]
          | BraceOpen =>
            rw [scan_cons_open _ _ _ _ _ hp hb hbr] at h ⊢
            rw [scan_cons_open _ _ _ _ _ hp hb hbr]
            cases hin : scan f [leaf ln] rest with
            | error e =>
              have hne : scan f [leaf ln] rest ≠ .error .outOfFuel := by
                intro h2
                rw [h2] at h
                exact h rfl
              rw [ih _ _ hne, hin]
              rfl
            | ok r =>
              have hne : scan f [leaf ln] rest ≠ .error .outOfFuel := by
                rw [hin]; intro h2; cases h2
              rw [ih _ _ hne, hin]
              rw [hin] at h
              exact ih _ _ h

theorem scan_fuel_le (f g : Nat) (acc : List node) (ls : List GoString)
    (h : scan f acc ls ≠ .error .outOfFuel) (hfg : f ≤ g) : scan g acc ls = scan f acc ls := by
  induction g with
  | zero =>
    have : f = 0 := by omega
    subst this
    rfl
  | succ g ih =>
    by_cases hf : f ≤ g
    · have h1 := ih hf
      rw [scan_succ g acc ls (by rw [h1]; exact h), h1]
    · have : f = g + 1 := by omega
      subst this
      rfl

theorem idx_error (parts : List GoString) (i : Nat) (e : Fault)
    (h : idx parts i = .error e) : e = .panic := by
  unfold idx at h
  split at h
  · cases h
  · cases h; rfl

theorem parseOperation_error (content : GoString) (e : Fault)
    (h : parseOperation content = .error e) : e = .panic := by
  unfold parseOperation at h
  simp only at h
  split at h
  · rcases Except_bind_error.mp h with h | ⟨_, _, h⟩
    · exact idx_error _ _ _ h
    · rcases Except_bind_error.mp h with h | ⟨_, _, h⟩
      · exact idx_error _ _ _ h
      · cases h
  · split at h
    · rcases Except_bind_error.mp h with h | ⟨_, _, h⟩
      · exact idx_error _ _ _ h
      · rcases Except_bind_error.mp h with h | ⟨_, _, h⟩
        · exact idx_error _ _ _ h
        · cases h
    · split at h
      · rcases Except_bind_error.mp h with h | ⟨_, _, h⟩
        · exact idx_error _ _ _ h
        · rcases Except_bind_error.mp h with h | ⟨_, _, h⟩
          · exact idx_error _ _ _ h
          · cases h
      · cases h

theorem parseTrailingNull_error (content : GoString) (e : Fault)
    (h : parseTrailingNull content = .error e) : e = .panic := by
  unfold parseTrailingNull at h
  simp only at h
  split at h
  · rcases Except_bind_error.mp h with h | ⟨_, _, h⟩
    · unfold sliceTo at h
      split at h
      · cases h; rfl
      · cases h
    · cases h
  · cases h

theorem parseLine_error (s : GoString) (e : Fault) (h : parseLine s = .error e) :
    e = .panic := by
  unfold parseLine at h
  rcases Except_bind_error.mp h with h | ⟨r, _, h⟩
  · exact parseOperation_error _ _ h
  · obtain ⟨op, opStr, c1⟩ := r
    simp only at h
    rcases Except_bind_error.mp h with h | ⟨r2, _, h⟩
    · exact parseTrailingNull_error _ _ h
    · obtain ⟨hasNull, c2⟩ := r2
      cases h

/-- Fuel above the number of lines is enough for `scan`, and `scan` never gives back more
lines than it was given. -/
theorem scan_enough (f : Nat) : ∀ (acc : List node) (ls : List GoString), ls.length < f →
    scan f acc ls ≠ .error .outOfFuel ∧
      ∀ children rest, scan f acc ls = .ok (children, rest) → rest.length ≤ ls.length := by
  induction f with
  | zero => intro acc ls h; cases h
  | succ f ih =>
    intro acc ls hlen
    cases ls with
    | nil =>
      refine ⟨(by rw [scan_nil]; intro h; cases h), ?_⟩
      intro children rest h
      rw [scan_nil] at h
      cases h
      exact Nat.le_refl _
    | cons s rest0 =>
      have hlen0 : rest0.length < f := by simpa using hlen
      cases hp : parseLine s with
      | error e =>
        rw [scan_cons_error _ _ _ _ _ hp]
        refine ⟨?_, fun _ _ h => by cases h⟩
        intro h
        cases h
        cases parseLine_error _ _ hp
      | ok ln =>
        cases hb : Contains ln.content endBanner with
        | true =>
          rw [scan_cons_banner _ _ _ _ _ hp hb]
          refine ⟨(by intro h; cases h), ?_⟩
          intro children rest h
          cases h
          exact Nat.le_succ _
        | false =>
          cases hbr : ln.brace with
          | BraceNone =>
            rw [scan_cons_plain _ _ _ _ _ hp hb hbr]
            obtain ⟨h1, h2⟩ := ih (acc ++ [leaf ln]) rest0 hlen0
            exact ⟨h1, fun children rest h => Nat.le_succ_of_le (h2 children rest h)⟩
          | BraceClose =>
            rw [scan_cons_close _ _ _ _ _ hp hb hbr]
            refine ⟨(by intro h; cases h), ?_⟩
            intro children rest h
            cases h
            exact Nat.le_succ _
          | BraceOpen =>
            rw [scan_cons_open _ _ _ _ _ hp hb hbr]
            obtain ⟨h1, h2⟩ := ih [leaf ln] rest0 hlen0
            cases hin : scan f [leaf ln] rest0 with
            | error e =>
              refine ⟨?_, fun _ _ h => by cases h⟩
              intro h
              cases h
              exact h1 hin
            | ok r =>
              obtain ⟨sub, rest1⟩ := r
              have hr1 : rest1.length ≤ rest0.length := h2 sub rest1 hin
              obtain ⟨h3, h4⟩ := ih (acc ++ [block sub]) rest1 (Nat.lt_of_le_of_lt hr1 hlen0)
              refine ⟨h3, fun children rest h => ?_⟩
              exact Nat.le_succ_of_le (Nat.le_trans (h4 children rest h) hr1)

theorem lineKind_some (s : GoString) (k : braceType) (h : lineKind s = some k) :
    ∃ ln, parseLine s = .ok ln ∧ Contains ln.content endBanner = false ∧ ln.brace = k := by
  unfold lineKind at h
  split at h
  · rename_i ln hp
    split at h
    · cases h
    · rename_i hb
      simp only [Option.some.injEq] at h
      exact ⟨ln, hp, by simpa using hb, h⟩
  · cases h

theorem Scans_nil (acc : List node) : Scans acc [] (acc, []) := ⟨1, rfl⟩

theorem Scans_plain (acc : List node) (s : GoString) (rest : List GoString) (ln : line)
    (r : List node × List GoString)
    (hp : parseLine s = .ok ln) (hb : Contains ln.content endBanner = false)
    (hbr : ln.brace = BraceNone) (h : Scans (acc ++ [leaf ln]) rest r) :
    Scans acc (s :: rest) r := by
  obtain ⟨f, hf⟩ := h
  exact ⟨f + 1, by rw [scan_cons_plain _ _ _ _ _ hp hb hbr]; exact hf⟩

theorem Scans_close (acc : List node) (s : GoString) (rest : List GoString) (ln : line)
    (hp : parseLine s = .ok ln) (hb : Contains ln.content endBanner = false)
    (hbr : ln.brace = BraceClose) :
    Scans acc (s :: rest) (acc ++ [leaf ln], rest) :=
  ⟨1, scan_cons_close _ _ _ _ _ hp hb hbr⟩

theorem Scans_open (acc : List node) (s : GoString) (rest rest1 : List GoString) (ln : line)
    (sub : List node) (r : List node × List GoString)
    (hp : parseLine s = .ok ln) (hb : Contains ln.content endBanner = false)
    (hbr : ln.brace = BraceOpen)
    (h1 : Scans [leaf ln] rest (sub, rest1)) (h2 : Scans (acc ++ [block sub]) rest1 r) :
    Scans acc (s :: rest) r := by
  obtain ⟨f1, hf1⟩ := h1
  obtain ⟨f2, hf2⟩ := h2
  refine ⟨max f1 f2 + 1, ?_⟩
  rw [scan_cons_open _ _ _ _ _ hp hb hbr]
  have e1 : scan (max f1 f2) [leaf ln] rest = .ok (sub, rest1) := by
    rw [scan_fuel_le f1 _ _ _ (by rw [hf1]; intro h; cases h) (Nat.le_max_left _ _), hf1]
  have e2 : scan (max f1 f2) (acc ++ [block sub]) rest1 = .ok r := by
    rw [scan_fuel_le f2 _ _ _ (by rw [hf2]; intro h; cases h) (Nat.le_max_right _ _), hf2]
  rw [e1]
  exact e2

/-- What `scan` returns with some fuel is what the root of a section gets. -/
theorem Scans_scanRoot (ls rest : List GoString) (X : List node)
    (h : Scans [] ls (X, rest)) : scanRoot ls = .ok (block X, rest) := by
  obtain ⟨f, hf⟩ := h
  have hne := (scan_enough (ls.length + 1) [] ls (Nat.lt_succ_self _)).1
  have e1 := scan_fuel_le (ls.length + 1) (max f (ls.length + 1)) [] ls hne (Nat.le_max_right _ _)
  have e2 := scan_fuel_le f (max f (ls.length + 1)) [] ls (by rw [hf]; intro h; cases h)
    (Nat.le_max_left _ _)
  have e3 : scan (ls.length + 1) [] ls = .ok (X, rest) := by rw [← e1, e2, hf]
  simp only [scanRoot, e3, bind, Except.bind, pure, Except.pure]

/-! ## Nesting depth -/

theorem depthList_append (l1 l2 : List node) :
    depthList (l1 ++ l2) = max (depthList l1) (depthList l2) := by
  induction l1 with
  | nil => simp [depthList]
  | cons c l1 ih =>
    show max c.depth (depthList (l1 ++ l2)) = max (max c.depth (depthList l1)) (depthList l2)
    rw [ih, Nat.max_assoc]

theorem blocksList_append (l1 l2 : List node) :
    blocksList (l1 ++ l2) = blocksList l1 ++ blocksList l2 := by
  induction l1 with
  | nil => simp [blocksList]
  | cons c l1 ih =>
    show c.blocks ++ blocksList (l1 ++ l2) = (c.blocks ++ blocksList l1) ++ blocksList l2
    rw [ih, List.append_assoc]

theorem openLines_cons_open (s : GoString) (A : List GoString)
    (h : lineKind s = some BraceOpen) : openLines (s :: A) = s :: openLines A := by
  simp [openLines, List.filter_cons, h]

theorem openLines_cons_plain (s : GoString) (A : List GoString)
    (h : lineKind s = some BraceNone) : openLines (s :: A) = openLines A := by
  simp [openLines, List.filter_cons, h]

theorem closeLines_append (B1 B2 : List GoString) :
    closeLines (B1 ++ B2) = closeLines B1 ++ closeLines B2 := by
  simp [closeLines]

theorem closeLines_plain (P : List GoString) (hP : ∀ s ∈ P, lineKind s = some BraceNone) :
    closeLines P = [] := by
  simp only [closeLines, List.filter_eq_nil_iff, decide_eq_true_eq]
  intro s hs h
  rw [hP s hs] at h
  cases h

theorem plain_of_no_close (B : List GoString)
    (hB : ∀ s ∈ B, lineKind s = some BraceNone ∨ lineKind s = some BraceClose)
    (h0 : (closeLines B).length = 0) : ∀ s ∈ B, lineKind s = some BraceNone := by
  intro s hs
  rcases hB s hs with h | h
  · exact h
  · have hmem : s ∈ closeLines B := by
      simp only [closeLines, List.mem_filter, decide_eq_true_eq]
      exact ⟨hs, h⟩
    rw [List.length_eq_zero.mp h0] at hmem
    cases hmem

/-- A run of lines with `k + 1` closing lines splits at its last closing line. -/
theorem split_last_close (B : List GoString)
    (hB : ∀ s ∈ B, lineKind s = some BraceNone ∨ lineKind s = some BraceClose) :
    ∀ k, (closeLines B).length = k + 1 →
      ∃ Ba c Bb, B = Ba ++ c :: Bb ∧ lineKind c = some BraceClose ∧
        (∀ s ∈ Bb, lineKind s = some BraceNone) ∧ closeLines B = closeLines Ba ++ [c] := by
  induction B using List.reverseRecOn with
  | nil => intro k h; simp [closeLines] at h
  | append_singleton B x ih =>
    intro k hk
    rcases hB x (by simp) with hx | hx
    · have e : closeLines (B ++ [x]) = closeLines B := by
        rw [closeLines_append, closeLines_plain [x] (by simpa using hx), List.append_nil]
      rw [e] at hk
      obtain ⟨Ba, c, Bb, h1, h2, h3, h4⟩ :=
        ih (fun s hs => hB s (List.mem_append_left _ hs)) k hk
      refine ⟨Ba, c, Bb ++ [x], by rw [h1]; simp, h2, ?_, by rw [e, h4]⟩
      intro s hs
      rcases List.mem_append.mp hs with h | h
      · exact h3 s h
      · rw [List.mem_singleton] at h
        rw [h]
        exact hx
    · refine ⟨B, x, [], rfl, hx, (fun s hs => by cases hs), ?_⟩
      rw [closeLines_append]
      simp [closeLines, hx]

/-- A run of plain lines adds one leaf per line to the current level. -/
theorem Scans_plain_run (P : List GoString) (hP : ∀ s ∈ P, lineKind s = some BraceNone) :
    ∃ L, depthList L = 0 ∧ blocksList L = [] ∧
      ∀ acc rest r, Scans (acc ++ L) rest r → Scans acc (P ++ rest) r := by
  induction P with
  | nil => exact ⟨[], rfl, rfl, fun acc rest r h => by simpa using h⟩
  | cons s P ih =>
    obtain ⟨L, h1, h2, h3⟩ := ih (fun t ht => hP t (List.mem_cons_of_mem _ ht))
    obtain ⟨ln, hp, hb, hbr⟩ := lineKind_some s _ (hP s (List.mem_cons_self _ _))
    refine ⟨leaf ln :: L, ?_, ?_, ?_⟩
    · simp [depthList, node.depth, h1]
    · simp [blocksList, node.blocks, h2]
    · intro acc rest r h
      apply Scans_plain acc s (P ++ rest) ln r hp hb hbr
      apply h3
      simpa using h

/-- A level that has only plain lines left before its ending. -/
theorem Scans_level_nil (acc : List node) (P T : List GoString)
    (hP : ∀ s ∈ P, lineKind s = some BraceNone) (hT : Ending T) :
    ∃ X rest, Scans acc (P ++ T) (acc ++ X, rest) ∧ depthList X = 0 ∧ blocksList X = [] ∧
      EndsWith T X rest := by
  obtain ⟨L, h1, h2, h3⟩ := Scans_plain_run P hP
  rcases hT with rfl | ⟨c, B2, rfl, hc⟩
  · refine ⟨L, [], h3 acc [] _ (Scans_nil _), h1, h2, fun _ => rfl, ?_⟩
    intro c B2 h
    cases h
  · obtain ⟨lc, hp, hb, hbr⟩ := lineKind_some c _ hc
    refine ⟨L ++ [leaf lc], B2, ?_, ?_, ?_, ?_, ?_⟩
    · apply h3
      have := Scans_close (acc ++ L) c B2 lc hp hb hbr
      simpa using this
    · simp [depthList_append, h1, depthList, node.depth]
    · simp [blocksList_append, h2, blocksList, node.blocks]
    · intro h
      cases h
    · intro c1 B3 h
      cases h
      exact ⟨rfl, lc, hp, by simp⟩

theorem getLast?_cons_of_some (a : node) (l : List node) (x : node)
    (h : l.getLast? = some x) : (a :: l).getLast? = some x := by
  cases l with
  | nil => cases h
  | cons b l => simpa [List.getLast?_cons_cons] using h

/-- One level of `scan`: after the lines `A` (plain and opening lines, `k` of them
opening), the lines `B1` (plain and closing lines, `k` of them closing) and the ending `T`,
the level has gained children of depth `k` whose blocks, in document order, pair the
opening lines in order with the closing lines in reverse order. -/
theorem Scans_level (A : List GoString) :
    ∀ (k : Nat) (acc : List node) (B1 T : List GoString),
      (∀ s ∈ A, lineKind s = some BraceNone ∨ lineKind s = some BraceOpen) →
      (openLines A).length = k →
      (∀ s ∈ B1, lineKind s = some BraceNone ∨ lineKind s = some BraceClose) →
      (closeLines B1).length = k → Ending T →
      ∃ X rest, Scans acc (A ++ B1 ++ T) (acc ++ X, rest) ∧ depthList X = k ∧
        List.Forall₂ blockSpans (blocksList X)
          (List.zip (openLines A) (closeLines B1).reverse) ∧
        EndsWith T X rest := by
  induction A with
  | nil =>
    intro k acc B1 T _ hk hB1 hc hT
    simp only [openLines, List.filter_nil, List.length_nil] at hk
    subst hk
    obtain ⟨X, rest, h1, h2, h3, h4⟩ :=
      Scans_level_nil acc B1 T (plain_of_no_close B1 hB1 hc) hT
    refine ⟨X, rest, by simpa using h1, h2, ?_, h4⟩
    rw [h3]
    simp [openLines]
  | cons s A ih =>
    intro k acc B1 T hA hk hB1 hc hT
    have hA1 : ∀ t ∈ A, lineKind t = some BraceNone ∨ lineKind t = some BraceOpen :=
      fun t ht => hA t (List.mem_cons_of_mem _ ht)
    rcases hA s (List.mem_cons_self _ _) with hs | hs
    · -- a plain line: one more leaf at this level
      obtain ⟨ln, hp, hb, hbr⟩ := lineKind_some s _ hs
      rw [openLines_cons_plain s A hs] at hk ⊢
      obtain ⟨X, rest, h1, h2, h3, h4⟩ := ih k (acc ++ [leaf ln]) B1 T hA1 hk hB1 hc hT
      refine ⟨leaf ln :: X, rest, ?_, ?_, ?_, ?_⟩
      · apply Scans_plain acc s (A ++ B1 ++ T) ln _ hp hb hbr
        simpa using h1
      · simp [depthList, node.depth, h2]
      · simpa [blocksList, node.blocks] using h3
      · refine ⟨h4.1, fun c B2 hcT => ?_⟩
        obtain ⟨e, lc, hlc, hlast⟩ := h4.2 c B2 hcT
        exact ⟨e, lc, hlc, getLast?_cons_of_some _ _ _ hlast⟩
    · -- an opening line: a new block, closed by the last closing line of `B1`
      obtain ⟨lo, hp, hb, hbr⟩ := lineKind_some s _ hs
      rw [openLines_cons_open s A hs] at hk ⊢
      obtain ⟨k1, rfl⟩ : ∃ k1, k = k1 + 1 := ⟨(openLines A).length, by simpa using hk.symm⟩
      have hk1 : (openLines A).length = k1 := by simpa using hk
      obtain ⟨Ba, c, Bb, hsplit, hcl, hBb, hcls⟩ := split_last_close B1 hB1 k1 hc
      have hBa : ∀ t ∈ Ba, lineKind t = some BraceNone ∨ lineKind t = some BraceClose :=
        fun t ht => hB1 t (by rw [hsplit]; exact List.mem_append_left _ ht)
      have hca : (closeLines Ba).length = k1 := by
        rw [hcls] at hc
        simpa using hc
      obtain ⟨X1, rest1, h1, h2, h3, h4⟩ :=
        ih k1 [leaf lo] Ba (c :: (Bb ++ T)) hA1 hk1 hBa hca (Or.inr ⟨c, Bb ++ T, rfl, hcl⟩)
      obtain ⟨e1, lc, hlc, hlast⟩ := h4.2 c (Bb ++ T) rfl
      subst e1
      obtain ⟨X2, rest, g1, g2, g3, g4⟩ :=
        Scans_level_nil (acc ++ [block ([leaf lo] ++ X1)]) Bb T hBb hT
      refine ⟨block ([leaf lo] ++ X1) :: X2, rest, ?_, ?_, ?_, ?_⟩
      · have e : s :: A ++ B1 ++ T = s :: (A ++ Ba ++ c :: (Bb ++ T)) := by
          rw [hsplit]
          simp
        rw [e]
        apply Scans_open acc s _ (Bb ++ T) lo ([leaf lo] ++ X1) _ hp hb hbr h1
        simpa using g1
      · simp [depthList, node.depth, h2, g2]
        omega
      · rw [hcls]
        simp only [blocksList, node.blocks, List.reverse_append, List.reverse_singleton,
          List.singleton_append, List.zip_cons_cons, g3, List.append_nil, List.cons_append]
        refine List.Forall₂.cons ?_ ?_
        · exact ⟨leaf lo :: X1, lo, lc, rfl, hp, hlc, rfl,
            getLast?_cons_of_some _ _ _ hlast⟩
        · simpa [blocksList, node.blocks] using h3
      · refine ⟨g4.1, fun c2 B2 hcT => ?_⟩
        obtain ⟨e, lc2, hlc2, hlast2⟩ := g4.2 c2 B2 hcT
        exact ⟨e, lc2, hlc2, getLast?_cons_of_some _ _ _ hlast2⟩

/-- C10. For a section made of lines `A` followed by lines `B`, where `A` holds plain lines
and `N` brace-opening lines, `B` holds plain lines and `N` brace-closing lines and no line
is a banner line, `scan` consumes every line and builds a root of depth `N + 1`; the blocks
of the tree, in the order they were opened, are paired with the opening lines in order and
the closing lines in reverse order: the `i`-th block has the `i`-th opening line as first
child and the `(N + 1 - i)`-th closing line as last child. -/
theorem scan_nesting_depth (A B : List GoString) (N : Nat)
    (hA : ∀ s ∈ A, lineKind s = some BraceNone ∨ lineKind s = some BraceOpen)
    (hB : ∀ s ∈ B, lineKind s = some BraceNone ∨ lineKind s = some BraceClose)
    (hAN : (openLines A).length = N) (hBN : (closeLines B).length = N) :
    ∃ children, scanRoot (A ++ B) = .ok (block children, []) ∧
      (block children).depth = N + 1 ∧
      (blocksList children).length = N ∧
      List.Forall₂ blockSpans (blocksList children)
        (List.zip (openLines A) (closeLines B).reverse) := by
  obtain ⟨X, rest, h1, h2, h3, h4⟩ := Scans_level A N [] B [] hA hAN hB hBN (Or.inl rfl)
  have hr : rest = [] := h4.1 rfl
  subst hr
  refine ⟨X, ?_, ?_, ?_, h3⟩
  · apply Scans_scanRoot
    simpa using h1
  · simp only [node.depth, h2]
    omega
  · rw [List.Forall₂.length_eq h3]
    simp [hAN, hBN]

set_option maxRecDepth 100000 in
/-- Two nested blocks with plain lines before, between and after the braces. -/
theorem scan_nesting_depth_witness :
    (openLines nestOpening).length = 2 ∧ (closeLines nestClosing).length = 2 ∧
      ∃ children, scanRoot (nestOpening ++ nestClosing) = .ok (block children, []) ∧
        (block children).depth = 2 + 1 ∧
        (blocksList children).length = 2 ∧
        List.Forall₂ blockSpans (blocksList children)
          (List.zip (openLines nestOpening) (closeLines nestClosing).reverse) :=
  ⟨by decide, by decide,
    scan_nesting_depth nestOpening nestClosing 2 (by decide) (by decide) (by decide)
      (by decide)⟩

/-! ## The empty section -/

/-- C12. For the empty line sequence the scan leaves the root without children, and
`minimize` then evaluates `n.children[0]` in `getOperation` on that root: the pipeline of
`scanDiff` panics instead of rendering the empty string. -/
theorem scanDiff_empty_section_panics :
    scanRoot [] = .ok (block [], []) ∧ (block []).getOperation = .error .panic ∧
      (block []).minimize = .error .panic ∧ scanDiff [] = .error .panic := by
  decide

/-! ## Occurrences of a substring -/

theorem occursAt_nil (substr : GoString) (h : substr ≠ []) (j : Nat) :
    occursAt [] substr j = false := by
  cases substr with
  | nil => exact absurd rfl h
  | cons a as => simp [occursAt, HasPrefix, List.isPrefixOf]

theorem occursAt_zero (s substr : GoString) : occursAt s substr 0 = HasPrefix s substr := rfl

theorem occursAt_succ (c : Nat) (cs substr : GoString) (j : Nat) :
    occursAt (c :: cs) substr (j + 1) = occursAt cs substr j := rfl

/-- The loop of `strings.Index` returns `-1` when there is no occurrence and otherwise the
offset of the first one. -/
theorem indexFrom_spec (substr : GoString) (h : substr ≠ []) :
    ∀ (s : GoString) (k : Nat),
      (indexFrom substr s k = -1 ∧ ∀ j, occursAt s substr j = false) ∨
        ∃ i : Nat, indexFrom substr s k = ((k + i : Nat) : Int) ∧ occursAt s substr i = true ∧
          ∀ j, j < i → occursAt s substr j = false := by
  intro s
  induction s with
  | nil =>
    intro k
    left
    exact ⟨by simp [indexFrom, h], occursAt_nil substr h⟩
  | cons c cs ih =>
    intro k
    unfold indexFrom
    split
    · rename_i hp
      right
      exact ⟨0, by simp, by rw [occursAt_zero]; exact hp, fun j hj => by omega⟩
    · rename_i hp
      rcases ih (k + 1) with ⟨h1, h2⟩ | ⟨i, h1, h2, h3⟩
      · left
        refine ⟨h1, fun j => ?_⟩
        cases j with
        | zero => rw [occursAt_zero]; simpa using hp
        | succ j => rw [occursAt_succ]; exact h2 j
      · right
        refine ⟨i + 1, ?_, ?_, ?_⟩
        · rw [h1]
          congr 1
          omega
        · rw [occursAt_succ]; exact h2
        · intro j hj
          cases j with
          | zero => rw [occursAt_zero]; simpa using hp
          | succ j => rw [occursAt_succ]; exact h3 j (by omega)

theorem Index_cases (s substr : GoString) (h : substr ≠ []) :
    (Index s substr = -1 ∧ ∀ j, occursAt s substr j = false) ∨
      ∃ i : Nat, Index s substr = (i : Int) ∧ occursAt s substr i = true ∧
        ∀ j, j < i → occursAt s substr j = false := by
  rcases indexFrom_spec substr h s 0 with h1 | ⟨i, h1, h2, h3⟩
  · exact Or.inl h1
  · exact Or.inr ⟨i, by simpa [Index] using h1, h2, h3⟩

/-- `strings.Index` finds a match below `n` exactly when some occurrence starts below `n`. -/
theorem Index_below_iff (s substr : GoString) (n : Nat) (h : substr ≠ []) :
    (Index s substr ≠ -1 ∧ Index s substr < (n : Int)) ↔
      ∃ i, i < n ∧ occursAt s substr i = true := by
  rcases Index_cases s substr h with ⟨h1, h2⟩ | ⟨i, h1, h2, h3⟩
  · constructor
    · intro hh
      exact absurd h1 hh.1
    · rintro ⟨i, _, hi⟩
      rw [h2 i] at hi
      cases hi
  · constructor
    · intro hh
      rw [h1] at hh
      exact ⟨i, by omega, h2⟩
    · rintro ⟨j, hj, hoc⟩
      rw [h1]
      refine ⟨by omega, ?_⟩
      by_cases hij : i ≤ j
      · omega
      · rw [h3 j (by omega)] at hoc
        cases hoc

theorem Contains_iff (s substr : GoString) (h : substr ≠ []) :
    Contains s substr = true ↔ ∃ i, occursAt s substr i = true := by
  unfold Contains
  rw [decide_eq_true_eq]
  rcases Index_cases s substr h with ⟨h1, h2⟩ | ⟨i, h1, h2, _⟩
  · rw [h1]
    constructor
    · intro hh
      omega
    · rintro ⟨i, hi⟩
      rw [h2 i] at hi
      cases hi
  · rw [h1]
    exact ⟨fun _ => ⟨i, h2⟩, fun _ => by omega⟩

theorem markerWithin_iff (content : GoString) (m : Nat) :
    markerWithin content m = true ↔
      (Index content ([m] ++ escStr) ≠ -1 ∧ Index content ([m] ++ escStr) < 12) := by
  have h := Index_below_iff content ([m] ++ escStr) 12 (by simp)
  rw [show ((12 : Nat) : Int) = 12 from rfl] at h
  rw [h]
  simp [markerWithin, List.any_eq_true]

theorem occursAt_marker (content : GoString) (m : Nat) (i : Nat)
    (h : occursAt content ([m] ++ escStr) i = true) : occursAt content [m] i = true := by
  unfold occursAt HasPrefix at h ⊢
  cases hd : content.drop i with
  | nil => rw [hd] at h; simp [List.isPrefixOf] at h
  | cons c cs =>
    rw [hd] at h
    simp only [List.singleton_append, List.isPrefixOf, Bool.and_eq_true, beq_iff_eq] at h
    simp [List.isPrefixOf, h.1]

/-- Where the marker with its ESC `[` occurs, `SplitAfterN` on the marker has two pieces. -/
theorem SplitAfterN_marker (content : GoString) (m : Nat)
    (h : Index content ([m] ++ escStr) ≠ -1) :
    ∃ p0 p1, idx (SplitAfterN [m] content 2) 0 = .ok p0 ∧
      idx (SplitAfterN [m] content 2) 1 = .ok p1 := by
  have hocc : ∃ i, occursAt content [m] i = true := by
    rcases Index_cases content ([m] ++ escStr) (by simp) with ⟨h1, _⟩ | ⟨i, _, h2, _⟩
    · exact absurd h1 h
    · exact ⟨i, occursAt_marker content m i h2⟩
  have hge : ¬ Index content [m] < 0 := by
    rcases Index_cases content [m] (by simp) with ⟨_, h2⟩ | ⟨i, h1, _, _⟩
    · obtain ⟨i, hi⟩ := hocc
      rw [h2 i] at hi
      cases hi
    · rw [h1]
      omega
  unfold SplitAfterN
  simp only [hge, if_false, SplitAfterN, idx, List.get?_cons_zero, List.get?_cons_succ]
  exact ⟨_, _, rfl, rfl⟩

/-! ## Operation detection -/

/-- C13. `parseOperation` never fails and returns the operation of the first marker found
in the order `+`, `-`, `~` among those that are immediately followed by ESC `[` and start
below offset 12; when there is none it returns None with an empty marker text and the
text itself as working content. -/
theorem parseOperation_detects (content : GoString) :
    ∃ m r, parseOperation content = .ok (expectedOperation content, m, r) ∧
      (expectedOperation content = OpNone → m = [] ∧ r = content) := by
  unfold parseOperation expectedOperation
  simp only
  by_cases ha : markerWithin content 43 = true
  · have ha2 := (markerWithin_iff content 43).mp ha
    obtain ⟨p0, p1, h0, h1⟩ := SplitAfterN_marker content 43 ha2.1
    refine ⟨p0, p1, ?_, ?_⟩
    · rw [if_pos ha2, if_pos ha]
      simp only [h0, h1, bind, Except.bind, pure, Except.pure]
    · simp [ha]
  · have ha2 : ¬ (Index content ([43] ++ escStr) ≠ -1 ∧ Index content ([43] ++ escStr) < 12) :=
      fun hh => ha ((markerWithin_iff content 43).mpr hh)
    by_cases hd : markerWithin content 45 = true
    · have hd2 := (markerWithin_iff content 45).mp hd
      obtain ⟨p0, p1, h0, h1⟩ := SplitAfterN_marker content 45 hd2.1
      refine ⟨p0, p1, ?_, ?_⟩
      · rw [if_neg ha2, if_neg ha, if_pos hd2, if_pos hd]
        simp only [h0, h1, bind, Except.bind, pure, Except.pure]
      · simp [ha, hd]
    · have hd2 : ¬ (Index content ([45] ++ escStr) ≠ -1 ∧
          Index content ([45] ++ escStr) < 12) :=
        fun hh => hd ((markerWithin_iff content 45).mpr hh)
      by_cases hu : markerWithin content 126 = true
      · have hu2 := (markerWithin_iff content 126).mp hu
        obtain ⟨p0, p1, h0, h1⟩ := SplitAfterN_marker content 126 hu2.1
        refine ⟨p0, p1, ?_, ?_⟩
        · rw [if_neg ha2, if_neg ha, if_neg hd2, if_neg hd, if_pos hu2, if_pos hu]
          simp only [h0, h1, bind, Except.bind, pure, Except.pure]
        · simp [ha, hd, hu]
      · have hu2 : ¬ (Index content ([126] ++ escStr) ≠ -1 ∧
            Index content ([126] ++ escStr) < 12) :=
          fun hh => hu ((markerWithin_iff content 126).mpr hh)
        refine ⟨[], content, ?_, fun _ => ⟨rfl, rfl⟩⟩
        rw [if_neg ha2, if_neg ha, if_neg hd2, if_neg hd, if_neg hu2, if_neg hu]
        rfl

/-- C14. In `+a+ESC[0m x` the marker `+` followed by ESC `[` is matched at offset 2, but
`SplitAfterN(content, "+", 2)` cuts after the first `+`, at offset 0: the marker text is
`+`, not `+a+`, and the working content `a+ESC[0m x` does not begin with ESC `[`. -/
theorem parseOperation_splits_at_first_marker_byte :
    Index (ascii "+a+\x1b[0m x") ([43] ++ escStr) = 2 ∧
      parseOperation (ascii "+a+\x1b[0m x") =
        .ok (OpAdd, ascii "+", ascii "a+\x1b[0m x") ∧
      HasPrefix (ascii "a+\x1b[0m x") escStr = false := by
  decide

/-! ## Brace role and trailing null -/

/-- The loop of `strings.LastIndex` returns `best` when there is no occurrence and
otherwise the offset of the last one. -/
theorem lastIndexFrom_spec (substr : GoString) (h : substr ≠ []) :
    ∀ (s : GoString) (k : Nat) (best : Int),
      (lastIndexFrom substr s k best = best ∧ ∀ j, occursAt s substr j = false) ∨
        ∃ i : Nat, lastIndexFrom substr s k best = ((k + i : Nat) : Int) ∧
          occursAt s substr i = true ∧ ∀ j, i < j → occursAt s substr j = false := by
  intro s
  induction s with
  | nil =>
    intro k best
    left
    exact ⟨by simp [lastIndexFrom, h], occursAt_nil substr h⟩
  | cons c cs ih =>
    intro k best
    unfold lastIndexFrom
    rcases ih (k + 1) (if HasPrefix (c :: cs) substr = true then (k : Int) else best) with
      ⟨h1, h2⟩ | ⟨i, h1, h2, h3⟩
    · by_cases hp : HasPrefix (c :: cs) substr = true
      · right
        refine ⟨0, ?_, ?_, ?_⟩
        · rw [h1, if_pos hp]; simp
        · rw [occursAt_zero]; exact hp
        · intro j hj
          cases j with
          | zero => omega
          | succ j => rw [occursAt_succ]; exact h2 j
      · left
        refine ⟨by rw [h1, if_neg hp], fun j => ?_⟩
        cases j with
        | zero => rw [occursAt_zero]; simpa using hp
        | succ j => rw [occursAt_succ]; exact h2 j
    · right
      refine ⟨i + 1, ?_, ?_, ?_⟩
      · rw [h1]
        congr 1
        omega
      · rw [occursAt_succ]; exact h2
      · intro j hj
        cases j with
        | zero => omega
        | succ j => rw [occursAt_succ]; exact h3 j (by omega)

theorem LastIndex_cases (s substr : GoString) (h : substr ≠ []) :
    (LastIndex s substr = -1 ∧ ∀ j, occursAt s substr j = false) ∨
      ∃ i : Nat, LastIndex s substr = (i : Int) ∧ occursAt s substr i = true ∧
        ∀ j, i < j → occursAt s substr j = false := by
  rcases lastIndexFrom_spec substr h s 0 (-1) with h1 | ⟨i, h1, h2, h3⟩
  · exact Or.inl h1
  · exact Or.inr ⟨i, by simpa [LastIndex] using h1, h2, h3⟩

theorem occursAt_drop (s substr : GoString) (a j : Nat) :
    occursAt (s.drop a) substr j = occursAt s substr (a + j) := by
  simp [occursAt, List.drop_drop, Nat.add_comm]

/-- `strings.LastIndex` lies above `n` exactly when the text after offset `n` contains the
substring. -/
theorem LastIndex_above_iff (s substr : GoString) (n : Nat) (h : substr ≠ []) :
    (LastIndex s substr ≠ -1 ∧ LastIndex s substr > (n : Int)) ↔
      Contains (s.drop (n + 1)) substr = true := by
  rw [Contains_iff _ _ h]
  rcases LastIndex_cases s substr h with ⟨h1, h2⟩ | ⟨i, h1, h2, h3⟩
  · constructor
    · intro hh
      exact absurd h1 hh.1
    · rintro ⟨j, hj⟩
      rw [occursAt_drop, h2] at hj
      cases hj
  · rw [h1]
    constructor
    · intro hh
      refine ⟨i - (n + 1), ?_⟩
      rw [occursAt_drop]
      have e : n + 1 + (i - (n + 1)) = i := by omega
      rw [e]
      exact h2
    · rintro ⟨j, hj⟩
      rw [occursAt_drop] at hj
      refine ⟨by omega, ?_⟩
      by_cases hij : n + 1 + j ≤ i
      · omega
      · rw [h3 (n + 1 + j) (by omega)] at hj
        cases hj

/-- A detected trailing null removes a window of exactly 34 bytes. -/
theorem parseTrailingNull_true (content rest : GoString)
    (h : parseTrailingNull content = .ok (true, rest)) :
    ∃ w, rest ++ w = content ∧ w.length = 34 := by
  unfold parseTrailingNull at h
  simp only at h
  split at h
  · rcases Except_bind_ok.mp h with ⟨c, hs, hc⟩
    simp only [pure, Except.pure, Except.ok.injEq, Prod.mk.injEq, true_and] at hc
    subst hc
    unfold sliceTo at hs
    split at hs
    · cases hs
    · rename_i hr
      simp only [Except.ok.injEq] at hs
      refine ⟨content.drop ((content.length : Int) - 34).toNat, ?_, ?_⟩
      · rw [← hs]
        exact List.take_append_drop _ _
      · rw [List.length_drop]
        omega
  · simp [pure, Except.pure] at h

/-- C15, as the code has it. The brace role of a classified line is the brace role of its
working content before the trailing-null window is cut off: of the returned content when
no trailing null was detected, and of the returned content followed by the 34 bytes that
were removed when one was. -/
theorem parseLine_brace_of_unstripped (s : GoString) (ln : line)
    (h : parseLine s = .ok ln) :
    ∃ w, ln.opStr ++ ln.content ++ w = TrimLeft s ∧
      (ln.hasTrailingNull = false → w = []) ∧
      (ln.hasTrailingNull = true → w.length = 34) ∧
      ln.brace = braceOf (ln.content ++ w) := by
  obtain ⟨op, opStr, c1, hasNull, c2, hp, ht, rfl⟩ := parseLine_ok s ln h
  have e1 := parseOperation_concat _ _ _ _ hp
  cases hasNull with
  | false =>
    have e2 := parseTrailingNull_false c1 c2 ht
    subst e2
    refine ⟨[], ?_, fun _ => rfl, ?_, ?_⟩
    · simpa using e1
    · intro hh
      cases hh
    · simp [braceOf]
  | true =>
    obtain ⟨w, hw, hlen⟩ := parseTrailingNull_true c1 c2 ht
    refine ⟨w, ?_, ?_, fun _ => hlen, ?_⟩
    · simp only
      rw [List.append_assoc, hw, e1]
    · intro hh
      cases hh
    · simp only [hw, braceOf]

/-- A line that ends with an opening brace is classified as such. -/
theorem parseLine_brace_of_unstripped_witness :
    parseLine lnU = .ok ⟨0, OpUpdate, [126], ascii "\x1b[0m attr \x7b", BraceOpen, false⟩ ∧
      ∃ w, [126] ++ ascii "\x1b[0m attr \x7b" ++ w = TrimLeft lnU ∧
        ((false : Bool) = false → w = []) ∧ ((false : Bool) = true → w.length = 34) ∧
        BraceOpen = braceOf (ascii "\x1b[0m attr \x7b" ++ w) :=
  ⟨by decide,
    parseLine_brace_of_unstripped lnU
      ⟨0, OpUpdate, [126], ascii "\x1b[0m attr \x7b", BraceOpen, false⟩ (by decide)⟩

/-- C15, counterexample. The line `a {` followed by 26 spaces and ` -> null` ends with
`l`, so its brace role is None; the trailing-null window of 34 bytes is then cut off and
the returned content `a {` ends with an opening brace. -/
theorem parseLine_brace_before_null_stripping :
    parseLine nullAfterBrace = .ok ⟨0, OpNone, [], ascii "a \x7b", BraceNone, true⟩ ∧
      braceOf (ascii "a \x7b") = BraceOpen := by
  decide

/-- C16, as the code has it. On a working content of at least 34 bytes `parseTrailingNull`
detects a trailing null exactly when the last 33 bytes contain both `->` and `null`; it
then returns the content without its last 34 bytes, and otherwise the content unchanged. -/
theorem parseTrailingNull_window (content : GoString) (h : 34 ≤ content.length) :
    parseTrailingNull content =
      .ok (trailingNullExpected content,
        if trailingNullExpected content then content.take (content.length - 34)
        else content) := by
  have hn := LastIndex_above_iff content (ascii "null") (content.length - 34) (by decide)
  have ha := LastIndex_above_iff content (ascii "->") (content.length - 34) (by decide)
  have e : ((content.length - 34 : Nat) : Int) = (content.length : Int) - 34 := by omega
  have e2 : content.length - 34 + 1 = content.length - 33 := by omega
  rw [e, e2] at hn ha
  unfold parseTrailingNull
  simp only
  by_cases hx : trailingNullExpected content = true
  · have hx2 := hx
    simp only [trailingNullExpected, lastBytes, Bool.and_eq_true] at hx2
    have hc : LastIndex content (ascii "null") ≠ -1 ∧
        LastIndex content (ascii "null") > (content.length : Int) - 34 ∧
        LastIndex content (ascii "->") ≠ -1 ∧
        LastIndex content (ascii "->") > (content.length : Int) - 34 :=
      ⟨(hn.mpr hx2.2).1, (hn.mpr hx2.2).2, (ha.mpr hx2.1).1, (ha.mpr hx2.1).2⟩
    rw [if_pos hc, hx]
    have hs : sliceTo content ((content.length : Int) - 34) =
        .ok (content.take (content.length - 34)) := by
      unfold sliceTo
      have : ¬ ((content.length : Int) - 34 < 0 ∨
          (content.length : Int) < (content.length : Int) - 34) := by omega
      rw [if_neg this, ← e]
      rfl
    simp only [hs, bind, Except.bind, pure, Except.pure, if_true]
  · have hc : ¬ (LastIndex content (ascii "null") ≠ -1 ∧
        LastIndex content (ascii "null") > (content.length : Int) - 34 ∧
        LastIndex content (ascii "->") ≠ -1 ∧
        LastIndex content (ascii "->") > (content.length : Int) - 34) := by
      intro hh
      apply hx
      simp only [trailingNullExpected, lastBytes, Bool.and_eq_true]
      exact ⟨ha.mp ⟨hh.2.2.1, hh.2.2.2⟩, hn.mp ⟨hh.1, hh.2.1⟩⟩
    rw [if_neg hc]
    simp only [Bool.not_eq_true] at hx
    rw [hx]
    rfl

/-- A closing brace followed by a 34-byte annotation is cut back to the brace. -/
theorem parseTrailingNull_window_witness :
    34 ≤ (ascii "\x7d \x1b[90m-> null\x1b[0m" ++ List.replicate 17 32).length ∧
      parseTrailingNull (ascii "\x7d \x1b[90m-> null\x1b[0m" ++ List.replicate 17 32) =
        .ok (true, ascii "\x7d") := by
  refine ⟨by decide, ?_⟩
  rw [parseTrailingNull_window _ (by decide)]
  decide

/-- C16, counterexample. In the 34 bytes `-> null` followed by 27 spaces the last 34 bytes
contain both tokens, but `->` starts at offset `len - 34`, which is not greater than
`len - 34`: no trailing null is detected. -/
theorem parseTrailingNull_misses_window_start :
    arrowAtWindowStart.length = 34 ∧
      Contains (lastBytes arrowAtWindowStart 34) (ascii "->") = true ∧
      Contains (lastBytes arrowAtWindowStart 34) (ascii "null") = true ∧
      parseTrailingNull arrowAtWindowStart = .ok (false, arrowAtWindowStart) := by
  decide

/-! ## Document order -/

theorem leavesList_append (l1 l2 : List node) :
    leavesList (l1 ++ l2) = leavesList l1 ++ leavesList l2 := by
  induction l1 with
  | nil => simp [leavesList]
  | cons c l1 ih =>
    show c.leaves ++ leavesList (l1 ++ l2) = (c.leaves ++ leavesList l1) ++ leavesList l2
    rw [ih, List.append_assoc]

mutual
theorem toStr_eq_leaves : ∀ n : node, n.toStr = (n.leaves.map line.toStr).flatten
  | leaf d => by simp [node.toStr, node.leaves]
  | block cs => by
      simp only [node.toStr, node.leaves]
      exact toStrList_eq_leaves cs
theorem toStrList_eq_leaves : ∀ cs : List node,
    toStrList cs = ((leavesList cs).map line.toStr).flatten
  | [] => rfl
  | c :: cs => by
      simp only [toStrList, leavesList, List.map_append, List.flatten_append]
      rw [toStr_eq_leaves c, toStrList_eq_leaves cs]
end

/-- What `scan` returns: the lines it was given are the lines it consumed followed by the
lines it left, and the leaves it added are the consumed lines, classified, in order. -/
theorem scan_leaves (f : Nat) : ∀ (acc : List node) (ls : List GoString)
    (children : List node) (rest : List GoString),
    scan f acc ls = .ok (children, rest) →
    ∃ consumed lns, ls = consumed ++ rest ∧
      List.Forall₂ (fun s ln => parseLine s = .ok ln) consumed lns ∧
      leavesList children = leavesList acc ++ lns := by
  induction f with
  | zero => intro acc ls children rest h; cases h
  | succ f ih =>
    intro acc ls children rest h
    cases ls with
    | nil =>
      rw [scan_nil] at h
      cases h
      exact ⟨[], [], rfl, List.Forall₂.nil, by simp⟩
    | cons s rest0 =>
      cases hp : parseLine s with
      | error e =>
        rw [scan_cons_error _ _ _ _ _ hp] at h
        cases h
      | ok ln =>
        have one : leavesList (acc ++ [leaf ln]) = leavesList acc ++ [ln] := by
          rw [leavesList_append]
          rfl
        cases hb : Contains ln.content endBanner with
        | true =>
          rw [scan_cons_banner _ _ _ _ _ hp hb] at h
          cases h
          exact ⟨[s], [ln], rfl, List.Forall₂.cons hp List.Forall₂.nil, one⟩
        | false =>
          cases hbr : ln.brace with
          | BraceNone =>
            rw [scan_cons_plain _ _ _ _ _ hp hb hbr] at h
            obtain ⟨c1, l1, h1, h2, h3⟩ := ih _ _ _ _ h
            refine ⟨s :: c1, ln :: l1, by rw [h1]; rfl, List.Forall₂.cons hp h2, ?_⟩
            rw [h3, one, List.append_assoc]
            rfl
          | BraceClose =>
            rw [scan_cons_close _ _ _ _ _ hp hb hbr] at h
            cases h
            exact ⟨[s], [ln], rfl, List.Forall₂.cons hp List.Forall₂.nil, one⟩
          | BraceOpen =>
            rw [scan_cons_open _ _ _ _ _ hp hb hbr] at h
            obtain ⟨r, hin, hout⟩ := Except_bind_ok.mp h
            obtain ⟨sub, rest1⟩ := r
            simp only at hout
            obtain ⟨c1, l1, h1, h2, h3⟩ := ih _ _ _ _ hin
            obtain ⟨c2, l2, g1, g2, g3⟩ := ih _ _ _ _ hout
            refine ⟨s :: (c1 ++ c2), ln :: (l1 ++ l2), ?_, ?_, ?_⟩
            · rw [h1, g1]
              simp
            · exact List.Forall₂.cons hp (List.rel_append h2 g2)
            · rw [g3, leavesList_append]
              have e : leavesList [block sub] = leavesList sub := by
                simp [leavesList, node.leaves]
              rw [e, h3]
              simp [leavesList, node.leaves]

/-- `scan` panics only on a line on which `parseLine` panics. -/
theorem scan_panic (f : Nat) : ∀ (acc : List node) (ls : List GoString),
    scan f acc ls = .error .panic → ∃ s ∈ ls, parseLine s = .error .panic := by
  induction f with
  | zero => intro acc ls h; cases h
  | succ f ih =>
    intro acc ls h
    cases ls with
    | nil => rw [scan_nil] at h; cases h
    | cons s rest0 =>
      cases hp : parseLine s with
      | error e =>
        rw [scan_cons_error _ _ _ _ _ hp] at h
        cases h
        exact ⟨s, List.mem_cons_self _ _, hp⟩
      | ok ln =>
        cases hb : Contains ln.content endBanner with
        | true =>
          rw [scan_cons_banner _ _ _ _ _ hp hb] at h
          cases h
        | false =>
          cases hbr : ln.brace with
          | BraceNone =>
            rw [scan_cons_plain _ _ _ _ _ hp hb hbr] at h
            obtain ⟨t, ht, hpt⟩ := ih _ _ h
            exact ⟨t, List.mem_cons_of_mem _ ht, hpt⟩
          | BraceClose =>
            rw [scan_cons_close _ _ _ _ _ hp hb hbr] at h
            cases h
          | BraceOpen =>
            rw [scan_cons_open _ _ _ _ _ hp hb hbr] at h
            rcases Except_bind_error.mp h with hin | ⟨r, hin, hout⟩
            · obtain ⟨t, ht, hpt⟩ := ih _ _ hin
              exact ⟨t, List.mem_cons_of_mem _ ht, hpt⟩
            · obtain ⟨sub, rest1⟩ := r
              simp only at hout
              obtain ⟨c1, l1, h1, _, _⟩ := scan_leaves f _ _ _ _ hin
              obtain ⟨t, ht, hpt⟩ := ih _ _ hout
              refine ⟨t, List.mem_cons_of_mem _ ?_, hpt⟩
              rw [h1]
              exact List.mem_append_right _ ht

/-- The scan of a section returns whenever every line classifies. -/
theorem scanRoot_total (lines : List GoString)
    (h : ∀ s ∈ lines, (parseLine s).isOk = true) :
    ∃ children rest, scan (lines.length + 1) [] lines = .ok (children, rest) ∧
      scanRoot lines = .ok (block children, rest) := by
  cases hs : scan (lines.length + 1) [] lines with
  | error e =>
    cases e with
    | outOfFuel =>
      exact absurd hs (scan_enough (lines.length + 1) [] lines (Nat.lt_succ_self _)).1
    | panic =>
      obtain ⟨s, hmem, hp⟩ := scan_panic _ _ _ hs
      have := h s hmem
      rw [hp] at this
      cases this
  | ok r =>
    obtain ⟨children, rest⟩ := r
    refine ⟨children, rest, rfl, ?_⟩
    simp only [scanRoot, hs, bind, Except.bind, pure, Except.pure]

/-- C11. When every line classifies, the scan of a section returns; the lines are those it
consumed followed by those it left; the leaves of the tree, left to right and depth first,
are the classified consumed lines in input order, one leaf per line; and the tree renders
as the concatenation of the renderings of these classified lines. -/
theorem scan_preserves_document_order (lines : List GoString)
    (h : ∀ s ∈ lines, (parseLine s).isOk = true) :
    ∃ root rest consumed, scanRoot lines = .ok (root, rest) ∧ lines = consumed ++ rest ∧
      List.Forall₂ (fun s ln => parseLine s = .ok ln) consumed root.leaves ∧
      root.toStr = (root.leaves.map line.toStr).flatten := by
  obtain ⟨children, rest, hs, hr⟩ := scanRoot_total lines h
  obtain ⟨consumed, lns, h1, h2, h3⟩ := scan_leaves _ _ _ _ _ hs
  refine ⟨block children, rest, consumed, hr, h1, ?_, toStr_eq_leaves _⟩
  have e : (block children).leaves = lns := by
    simp only [node.leaves, h3, leavesList, List.nil_append]
  rw [e]
  exact h2

set_option maxRecDepth 100000 in
/-- A section with a nested block, closed by the banner, followed by one more line. -/
theorem scan_preserves_document_order_witness :
    ∃ root rest consumed,
      scanRoot [lnN, lnU, lnA, lnC, endBanner, lnN] = .ok (root, rest) ∧
      [lnN, lnU, lnA, lnC, endBanner, lnN] = consumed ++ rest ∧
      List.Forall₂ (fun s ln => parseLine s = .ok ln) consumed root.leaves ∧
      root.toStr = (root.leaves.map line.toStr).flatten :=
  scan_preserves_document_order [lnN, lnU, lnA, lnC, endBanner, lnN] (by decide)

/-! ## Shape of the tree after `scan` -/

theorem wellPlaced_leaf (d : line) (rest : List node) :
    wellPlaced (leaf d :: rest) = (!opensBlock d && wellPlaced rest) := by
  simp [wellPlaced]

theorem wellPlaced_block (cs rest : List node) :
    wellPlaced (block cs :: rest) = ((block cs).opensWithLine && wellPlaced rest) := by
  simp [wellPlaced]

theorem opensWithLine_iff (cs : List node) :
    (block cs).opensWithLine = true ↔
      ∃ d tail, cs = leaf d :: tail ∧ opensBlock d = true ∧ wellPlaced tail = true := by
  cases cs with
  | nil => simp [node.opensWithLine]
  | cons c tail =>
    cases c with
    | leaf d =>
      simp only [node.opensWithLine, Bool.and_eq_true]
      constructor
      · intro hh
        exact ⟨d, tail, rfl, hh⟩
      · rintro ⟨d1, tail1, e, hh⟩
        cases e
        exact hh
    | block cs1 => simp [node.opensWithLine]

theorem wellPlaced_append (l1 l2 : List node) :
    wellPlaced (l1 ++ l2) = (wellPlaced l1 && wellPlaced l2) := by
  induction l1 with
  | nil => simp [wellPlaced]
  | cons c l1 ih =>
    cases c with
    | leaf d => simp only [List.cons_append, wellPlaced_leaf, ih, Bool.and_assoc]
    | block cs => simp only [List.cons_append, wellPlaced_block, ih, Bool.and_assoc]

/-- What `scan` adds to a level is well placed. -/
theorem scan_wellPlaced (f : Nat) : ∀ (acc : List node) (ls : List GoString)
    (children : List node) (rest : List GoString),
    scan f acc ls = .ok (children, rest) →
    ∃ X, children = acc ++ X ∧ wellPlaced X = true := by
  induction f with
  | zero => intro acc ls children rest h; cases h
  | succ f ih =>
    intro acc ls children rest h
    cases ls with
    | nil =>
      rw [scan_nil] at h
      cases h
      exact ⟨[], by simp, rfl⟩
    | cons s rest0 =>
      cases hp : parseLine s with
      | error e =>
        rw [scan_cons_error _ _ _ _ _ hp] at h
        cases h
      | ok ln =>
        cases hb : Contains ln.content endBanner with
        | true =>
          rw [scan_cons_banner _ _ _ _ _ hp hb] at h
          cases h
          exact ⟨[leaf ln], rfl, by simp [wellPlaced_leaf, opensBlock, hb, wellPlaced]⟩
        | false =>
          cases hbr : ln.brace with
          | BraceNone =>
            rw [scan_cons_plain _ _ _ _ _ hp hb hbr] at h
            obtain ⟨X, h1, h2⟩ := ih _ _ _ _ h
            refine ⟨leaf ln :: X, by rw [h1]; simp, ?_⟩
            simp [wellPlaced_leaf, opensBlock, hbr, h2]
          | BraceClose =>
            rw [scan_cons_close _ _ _ _ _ hp hb hbr] at h
            cases h
            exact ⟨[leaf ln], rfl, by simp [wellPlaced_leaf, opensBlock, hbr, wellPlaced]⟩
          | BraceOpen =>
            rw [scan_cons_open _ _ _ _ _ hp hb hbr] at h
            obtain ⟨r, hin, hout⟩ := Except_bind_ok.mp h
            obtain ⟨sub, rest1⟩ := r
            simp only at hout
            obtain ⟨X1, h1, h2⟩ := ih _ _ _ _ hin
            obtain ⟨X2, g1, g2⟩ := ih _ _ _ _ hout
            refine ⟨block sub :: X2, by rw [g1]; simp, ?_⟩
            rw [wellPlaced_block, g2, Bool.and_true, opensWithLine_iff]
            exact ⟨ln, X1, by rw [h1]; rfl, by simp [opensBlock, hbr, hb], h2⟩

mutual
theorem blocks_of_opensWithLine : ∀ n : node, n.opensWithLine = true →
    (∀ b ∈ n.blocks, ∃ d tail, b = block (leaf d :: tail) ∧ opensBlock d = true ∧
        b.getOperation = .ok d.operation) ∧
      n.blocks.map firstLine = (n.leaves.filter opensBlock).map some
  | leaf _, h => by simp [node.opensWithLine] at h
  | block cs, h => by
      obtain ⟨d, tail, rfl, hd, ht⟩ := (opensWithLine_iff cs).mp h
      obtain ⟨h1, h2⟩ := blocks_of_wellPlaced tail ht
      have hb : (block (leaf d :: tail)).blocks = block (leaf d :: tail) :: blocksList tail := by
        simp [node.blocks, blocksList]
      have hl : (block (leaf d :: tail)).leaves = d :: leavesList tail := by
        simp [node.leaves, leavesList]
      constructor
      · intro b hb1
        rw [hb] at hb1
        rcases List.mem_cons.mp hb1 with rfl | hb1
        · exact ⟨d, tail, rfl, hd, rfl⟩
        · exact h1 b hb1
      · rw [hb, hl, List.filter_cons_of_pos hd]
        simp only [List.map_cons, firstLine, h2]
theorem blocks_of_wellPlaced : ∀ cs : List node, wellPlaced cs = true →
    (∀ b ∈ blocksList cs, ∃ d tail, b = block (leaf d :: tail) ∧ opensBlock d = true ∧
        b.getOperation = .ok d.operation) ∧
      (blocksList cs).map firstLine = ((leavesList cs).filter opensBlock).map some
  | [], _ => by simp [blocksList, leavesList]
  | leaf d :: rest, h => by
      rw [wellPlaced_leaf, Bool.and_eq_true] at h
      obtain ⟨h1, h2⟩ := blocks_of_wellPlaced rest h.2
      have hd : ¬ (opensBlock d = true) := by simpa using h.1
      constructor
      · intro b hb
        exact h1 b (by simpa [blocksList, node.blocks] using hb)
      · simp only [blocksList, node.blocks, leavesList, node.leaves, List.nil_append,
          List.singleton_append, List.filter_cons_of_neg hd, h2]
  | block cs :: rest, h => by
      rw [wellPlaced_block, Bool.and_eq_true] at h
      obtain ⟨h1, h2⟩ := blocks_of_opensWithLine (block cs) h.1
      obtain ⟨g1, g2⟩ := blocks_of_wellPlaced rest h.2
      constructor
      · intro b hb
        simp only [blocksList, List.mem_append] at hb
        rcases hb with hb | hb
        · exact h1 b hb
        · exact g1 b hb
      · simp only [blocksList, leavesList, List.map_append, List.filter_append, h2, g2]
end

/-- C17. In the tree the scan of a section builds, every block below the root has a first
child, that child is the leaf of a line that opened a block (brace role Open, no banner in
its content), and the effective operation of the block is the operation of that line;
conversely the leaves of the lines that open a block are, in document order, exactly the
first children of the blocks. -/
theorem scan_tree_well_formed (lines rest : List GoString) (root : node)
    (h : scanRoot lines = .ok (root, rest)) :
    ∃ children, root = block children ∧
      (∀ b ∈ blocksList children, ∃ d tail, b = block (leaf d :: tail) ∧
        d.brace = BraceOpen ∧ Contains d.content endBanner = false ∧
        b.getOperation = .ok d.operation) ∧
      (blocksList children).map firstLine =
        ((leavesList children).filter opensBlock).map some := by
  unfold scanRoot at h
  obtain ⟨r, hs, hr⟩ := Except_bind_ok.mp h
  obtain ⟨children, rest1⟩ := r
  simp only [pure, Except.pure, Except.ok.injEq, Prod.mk.injEq] at hr
  obtain ⟨X, h1, h2⟩ := scan_wellPlaced _ _ _ _ _ hs
  simp only [List.nil_append] at h1
  subst h1
  obtain ⟨g1, g2⟩ := blocks_of_wellPlaced children h2
  refine ⟨children, hr.1.symm, ?_, g2⟩
  intro b hb
  obtain ⟨d, tail, e, hd, hop⟩ := g1 b hb
  simp only [opensBlock, Bool.and_eq_true, decide_eq_true_eq, Bool.not_eq_true'] at hd
  exact ⟨d, tail, e, hd.1, hd.2, hop⟩

set_option maxRecDepth 100000 in
/-- The tree of the nested sample section. -/
theorem scan_tree_well_formed_witness :
    scanRoot nestedLines = .ok (nestedTree, []) ∧
      ∃ children, nestedTree = block children ∧
        (∀ b ∈ blocksList children, ∃ d tail, b = block (leaf d :: tail) ∧
          d.brace = BraceOpen ∧ Contains d.content endBanner = false ∧
          b.getOperation = .ok d.operation) ∧
        (blocksList children).map firstLine =
          ((leavesList children).filter opensBlock).map some :=
  ⟨by decide, scan_tree_well_formed nestedLines [] nestedTree (by decide)⟩

/-! ## One run of `minimize` on a tree without empty blocks -/

theorem nodeAt_mem (cs : List node) (i : Int) (c : node) (h : nodeAt cs i = .ok c) :
    c ∈ cs := by
  unfold nodeAt at h
  split at h
  · cases h
  · split at h
    · rename_i c1 hg
      cases h
      exact List.get?_mem hg
    · cases h

/-- On children that all have an effective operation the loop of `minimize` completes:
`children[i-1]` and the cut by two entries stay in range, and what it returns is a
subsequence of the children. -/
theorem minimizeLoop_total (cs : List node)
    (hdef : ∀ c ∈ cs, c.getOperation.isOk = true) :
    ∀ (rest done newChildren : List node), cs = done ++ rest →
      List.Sublist newChildren done →
      ∃ out, minimizeLoop cs rest (done.length : Int) newChildren = .ok out ∧
        List.Sublist out cs := by
  intro rest
  induction rest with
  | nil =>
    intro done newChildren h hsub
    simp only [List.append_nil] at h
    subst h
    exact ⟨newChildren, rfl, hsub⟩
  | cons child rest ih =>
    intro done newChildren h hsub
    have hsub1 : List.Sublist (newChildren ++ [child]) (done ++ [child]) :=
      List.Sublist.append hsub (List.Sublist.refl _)
    have hcs : cs = (done ++ [child]) ++ rest := by simp [h]
    have hi : ((done ++ [child]).length : Int) = (done.length : Int) + 1 := by simp
    have hnext : ∀ l : List node, List.Sublist l (done ++ [child]) →
        ∃ out, minimizeLoop cs rest ((done.length : Int) + 1) l = .ok out ∧
          List.Sublist out cs := by
      intro l hl
      have := ih (done ++ [child]) l hcs hl
      rwa [hi] at this
    unfold minimizeLoop
    split
    · exact hnext _ hsub1
    · rename_i hlen
      have hlen1 : newChildren.length ≤ done.length := List.Sublist.length_le hsub
      have hdone : done ≠ [] := by
        intro e
        subst e
        simp only [List.length_nil, Nat.le_zero, List.length_eq_zero] at hlen1
        subst hlen1
        simp at hlen
      obtain ⟨p, a, rfl⟩ : ∃ p a, done = p ++ [a] :=
        ⟨done.dropLast, done.getLast hdone, (List.dropLast_append_getLast hdone).symm⟩
      have hat : nodeAt cs (((p ++ [a]).length : Int) - 1) = .ok a := by
        have e : (((p ++ [a]).length : Int) - 1) = (p.length : Int) := by simp
        rw [e, h]
        simp only [List.append_assoc, List.singleton_append]
        exact nodeAt_append_length p a _
      obtain ⟨opa, hopa⟩ := isOk_getOperation a (hdef a (by simp [h]))
      obtain ⟨opc, hopc⟩ := isOk_getOperation child (hdef child (by simp [h]))
      obtain ⟨b, hb⟩ := areInverseOperations_defined child a opc opa hopc hopa
      simp only [hat, hb, bind, Except.bind]
      split
      · have hcut : truncateTo (newChildren ++ [child])
            (((newChildren ++ [child]).length : Int) - 2) =
            .ok ((newChildren ++ [child]).take ((newChildren ++ [child]).length - 2)) := by
          unfold truncateTo
          have hl2 : 2 ≤ (newChildren ++ [child]).length := by omega
          have hr : ¬ ((((newChildren ++ [child]).length : Int) - 2 < 0) ∨
              ((newChildren ++ [child]).length : Int) <
                ((newChildren ++ [child]).length : Int) - 2) := by omega
          rw [if_neg hr]
          congr 2
          omega
        rw [hcut]
        exact hnext _ (List.Sublist.trans (List.take_sublist _ _) hsub1)
      · exact hnext _ hsub1

theorem minimizeScan_total (cs : List node)
    (hdef : ∀ c ∈ cs, c.getOperation.isOk = true) :
    ∃ out, minimizeScan cs = .ok out ∧ List.Sublist out cs :=
  minimizeLoop_total cs hdef cs [] [] rfl (List.Sublist.refl _)

theorem leavesList_sublist (l1 l2 : List node) (h : List.Sublist l1 l2) :
    List.Sublist (leavesList l1) (leavesList l2) := by
  induction h with
  | slnil => exact List.Sublist.refl _
  | cons a _ ih =>
    simp only [leavesList]
    exact List.Sublist.trans ih (List.sublist_append_right _ _)
  | cons₂ a _ ih =>
    simp only [leavesList]
    exact List.Sublist.append (List.Sublist.refl _) ih

theorem forEach_leaves_sublist (f : node → Except Fault node) (l : List node)
    (h : ∀ c ∈ l, ∃ c1, f c = .ok c1 ∧ List.Sublist c1.leaves c.leaves) :
    ∃ l1, forEach f l = .ok l1 ∧ List.Sublist (leavesList l1) (leavesList l) := by
  induction l with
  | nil => exact ⟨[], rfl, List.Sublist.refl _⟩
  | cons c l ih =>
    obtain ⟨c1, hc, hs⟩ := h c (List.mem_cons_self _ _)
    obtain ⟨l1, hl, hs1⟩ := ih (fun d hd => h d (List.mem_cons_of_mem _ hd))
    refine ⟨c1 :: l1, ?_, ?_⟩
    · simp only [forEach, hc, hl, bind, Except.bind, pure, Except.pure]
    · simp only [leavesList]
      exact List.Sublist.append hs hs1

mutual
theorem minimize_ok_node : ∀ n : node, n.nonEmptyBlocks = true →
    ∃ n1, n.minimize = .ok n1 ∧ List.Sublist n1.leaves n.leaves
  | leaf d, _ => ⟨leaf d, rfl, List.Sublist.refl _⟩
  | block cs, h => by
      obtain ⟨op, hop⟩ := isOk_getOperation _ (nonEmptyBlocks_getOperation (block cs) h)
      simp only [node.nonEmptyBlocks, Bool.and_eq_true] at h
      have hkids := minimize_ok_list cs h.2
      have hdef : ∀ c ∈ cs, c.getOperation.isOk = true := fun c hc =>
        nonEmptyBlocks_getOperation c (nonEmptyBlocksList_mem cs h.2 c hc)
      have fin : ∀ out, List.Sublist out cs →
          ∃ n1, (forEach node.minimize out >>= fun children2 => pure (block children2)) =
              .ok n1 ∧ List.Sublist n1.leaves (block cs).leaves := by
        intro out hout
        obtain ⟨l1, hl, hs⟩ := forEach_leaves_sublist node.minimize out
          (fun c hc => hkids c (List.Sublist.subset hout hc))
        refine ⟨block l1, by simp only [hl, bind, Except.bind, pure, Except.pure], ?_⟩
        simp only [node.leaves]
        exact List.Sublist.trans hs (leavesList_sublist _ _ hout)
      rw [minimize_block]
      simp only [hop, bind, Except.bind]
      split
      · obtain ⟨out, hs, hsub⟩ := minimizeScan_total cs hdef
        simp only [hs]
        exact fin out hsub
      · exact fin cs (List.Sublist.refl _)
theorem minimize_ok_list : ∀ cs : List node, nonEmptyBlocksList cs = true →
    ∀ c ∈ cs, ∃ c1, c.minimize = .ok c1 ∧ List.Sublist c1.leaves c.leaves
  | [], _ => fun c hc => by cases hc
  | d :: ds, h => by
      simp only [nonEmptyBlocksList, Bool.and_eq_true] at h
      intro c hc
      rcases List.mem_cons.mp hc with rfl | hc
      · exact minimize_ok_node c h.1
      · exact minimize_ok_list ds h.2 c hc
end

/-- C18. On a tree in which every block has a child, `minimize` returns a tree whose leaf
lines, left to right and depth first, form a subsequence of the leaf lines of the tree it
was given; both trees render as the concatenation of the renderings of their leaf lines,
so the output after `minimize` is the output before with some lines deleted. -/
theorem minimize_deletes_whole_lines (n : node) (h : n.nonEmptyBlocks = true) :
    ∃ n1, n.minimize = .ok n1 ∧ List.Sublist n1.leaves n.leaves ∧
      n.toStr = (n.leaves.map line.toStr).flatten ∧
      n1.toStr = (n1.leaves.map line.toStr).flatten := by
  obtain ⟨n1, h1, h2⟩ := minimize_ok_node n h
  exact ⟨n1, h1, h2, toStr_eq_leaves n, toStr_eq_leaves n1⟩

/-- The inverse pair of the sample block is deleted, the other two lines stay. -/
theorem minimize_deletes_whole_lines_witness :
    (block [hU, xA, yR, cN]).nonEmptyBlocks = true ∧
      ∃ n1, (block [hU, xA, yR, cN]).minimize = .ok n1 ∧
        List.Sublist n1.leaves (block [hU, xA, yR, cN]).leaves ∧
        (block [hU, xA, yR, cN]).toStr =
          ((block [hU, xA, yR, cN]).leaves.map line.toStr).flatten ∧
        n1.toStr = (n1.leaves.map line.toStr).flatten :=
  ⟨by decide, minimize_deletes_whole_lines (block [hU, xA, yR, cN]) (by decide)⟩

/-- C19. The tree `scan` builds from `~ attr {`, `+ value a`, `- value a`, `+ value a` has
no empty block; after `minimize` its inner block has no child left: the opening line is
gone and `getOperation` panics on the block and on the root. -/
theorem minimize_empties_block :
    scanRoot [lnU, lnA, lnR, lnA] = .ok (block [block [hU, xA, yR, xA]], []) ∧
      (block [block [hU, xA, yR, xA]]).nonEmptyBlocks = true ∧
      (block [block [hU, xA, yR, xA]]).minimize = .ok (block [block []]) ∧
      (block [block []]).nonEmptyBlocks = false ∧
      (block ([] : List node)).getOperation = .error .panic ∧
      (block [block []]).getOperation = .error .panic := by
  decide

/-- C20. On a tree in which every block has a child, one run of `minimize` completes: no
`children[0]` in `getOperation`, no `children[i-1]` in the scan and no cut of the output
list by two entries is out of range, and the recursion ends. -/
theorem minimize_completes (n : node) (h : n.nonEmptyBlocks = true) :
    ∃ n1, n.minimize = .ok n1 := by
  obtain ⟨n1, h1, _⟩ := minimize_ok_node n h
  exact ⟨n1, h1⟩

/-- The block that loses its opening line to the scan is still minimized without a
panic. -/
theorem minimize_completes_witness :
    (block [block [hU, xA, yR, xA]]).nonEmptyBlocks = true ∧
      ∃ n1, (block [block [hU, xA, yR, xA]]).minimize = .ok n1 :=
  ⟨by decide, minimize_completes (block [block [hU, xA, yR, xA]]) (by decide)⟩

end TfNeatDiff
